import Mathlib

/-!
Verification of the osm-request element layer (src/src/index.js).

The library manipulates OSM elements represented as XML-as-JSON documents:

  element = { osm: { $: {...}, node: [ { $: {lat, lon, version, timestamp},
                                        tag: [ { $: {k, v} }, ... ] } ] },
              _type: "node" }

The mutators (setProperty, setProperties, removeProperty, setCoordinates,
setTimestampToNow, setVersion) deep-clone the element and mutate the clone.
This file embeds that data model and those functions at two levels:
a pure value level (content of the results) and an explicit-heap level
(the deep-copy / no-aliasing discipline).
-/

namespace OsmReq

/-- JavaScript values relevant to the mutators: strings and numbers.
Numbers are modelled as rationals, which covers every numeric literal and
all the integer arithmetic the code performs.  JavaScript strict equality
on these values is plain decidable equality (values of different types are
never strictly equal). -/
inductive JSVal where
  | str (s : String)
  | num (q : Rat)
  deriving DecidableEq, Repr

/-- Decimal rendering of an integer, as JavaScript renders integers. -/
def intStr (i : Int) : String :=
  if i < 0 then "-" ++ Nat.repr i.natAbs else Nat.repr i.natAbs

/-- Digits after the decimal point by long division (`num < den`),
up to `fuel` digits. -/
def fracDigitChars (fuel num den : Nat) : List Char :=
  match fuel, num with
  | 0, _ => []
  | _, 0 => []
  | fuel + 1, num => Char.ofNat (48 + num * 10 / den) :: fracDigitChars fuel (num * 10 % den) den

/-- JavaScript Number.prototype.toString (base 10).  Exact on integers and on
finite decimal fractions of up to 30 digits, which covers every numeric value
the source and the claims exercise. -/
def ratToString (q : Rat) : String :=
  let sign := if q < 0 then "-" else ""
  let n := q.num.natAbs
  let den := q.den
  let intPart := Nat.repr (n / den)
  let frac := fracDigitChars 30 (n % den) den
  sign ++ intPart ++ (if frac.isEmpty then "" else "." ++ frac.asString)

/-- JavaScript `.toString()` on a string or a number. -/
def JSVal.toString : JSVal → String
  | .str s => s
  | .num q => ratToString q

/-- Whether a JavaScript value is a string. -/
def JSVal.isStr : JSVal → Bool
  | .str _ => true
  | .num _ => false

/-- JavaScript `parseInt` applied to a string (no radix argument): skip
leading whitespace, an optional sign, then read the leading run of decimal
digits; `none` models the `NaN` result when no digit is found.  (The `0x`
hexadecimal prefix of the builtin is not modelled; nothing exercises it.) -/
def parseIntJS (s : String) : Option Int :=
  let cs := s.data.dropWhile Char.isWhitespace
  let signNeg : Bool := match cs with
    | c :: _ => c == '-'
    | [] => false
  let cs2 := match cs with
    | '-' :: rest => rest
    | '+' :: rest => rest
    | l => l
  let ds := cs2.takeWhile Char.isDigit
  match ds with
  | [] => none
  | _ =>
    let n : Nat := ds.foldl (fun acc c => acc * 10 + (c.toNat - 48)) 0
    some (if signNeg then -(n : Int) else (n : Int))

/-- JavaScript rendering of a `parseInt` result: the integer in decimal, or
the string `NaN`. -/
def intDisplay : Option Int → String
  | some i => intStr i
  | none => "NaN"

/-- Decimal-integer syntax: an optional minus sign followed by at least one
digit.  Used to state what "a numeric integer" means for a stored string. -/
def isIntegerString (s : String) : Bool :=
  match s.data with
  | [] => false
  | '-' :: ds => !ds.isEmpty && ds.all Char.isDigit
  | ds => ds.all Char.isDigit

/-- The `$` object of a tag: `{ k, v }`. -/
structure TagAttrs where
  k : JSVal
  v : JSVal
  deriving DecidableEq, Repr

/-- An OSM tag object `{ $: { k, v } }`. -/
structure Tag where
  attrs : TagAttrs
  deriving DecidableEq, Repr

/-- The `$` object of an inner element: `{ lat, lon, version, timestamp }`,
each key possibly absent. -/
structure InnerAttrs where
  lat : Option JSVal
  lon : Option JSVal
  version : Option JSVal
  timestamp : Option JSVal
  deriving DecidableEq, Repr

/-- The three OSM element types. -/
inductive ElementType where
  | node
  | way
  | relation
  deriving DecidableEq, Repr

/-- The JSON key under which the inner element array is stored. -/
def typeName : ElementType → String
  | .node => "node"
  | .way => "way"
  | .relation => "relation"

/-- An inner element `{ $: {...}, tag: [...] }`; `tag = none` models a
document whose inner object has no `tag` array at all. -/
structure InnerElement where
  attrs : InnerAttrs
  tag : Option (List Tag)
  deriving DecidableEq, Repr

/-- An element document `{ osm: { $: {...}, <type>: [...] }, _type: <type> }`.
`osmDollar` is the (attribute-only) `osm.$` object.  The model assumes the
well-formed shape the library itself produces, where the key of the inner
array agrees with `_type`. -/
structure Element where
  osmDollar : List (String × JSVal)
  etype : ElementType
  elems : List InnerElement
  deriving DecidableEq, Repr

/-- Modelled from the spec: `simpleObjectDeepClone` lives in `helpers/utils`,
which is not under src; the spec says each mutator "returns a deep copy" of
its argument.  At the level of values a deep copy has the same value, so the
clone is the identity here; the heap-level model below (`allocElement`)
accounts for the aliasing content of the deep copy. -/
def simpleObjectDeepClone (e : Element) : Element := e

/-- The tag list of an inner element, with a missing `tag` array read as
empty. -/
def tagsOrEmpty (i : InnerElement) : List Tag := i.tag.getD []

/-- The list of tag keys. -/
def tagKeys (l : List Tag) : List JSVal := l.map fun t => t.attrs.k

/-- `setProperty` (src/src/index.js:304-323).  A `none` result models the
TypeError thrown when `newElement.osm[elementType][0]` is undefined.  The
filter drops tags whose key strictly equals `propertyName.toString()`. -/
def setProperty (element : Element) (propertyName propertyValue : JSVal) : Option Element :=
  let newElement := simpleObjectDeepClone element
  match newElement.elems with
  | [] => none
  | innerElement :: rest =>
    let filteredTags :=
      match innerElement.tag with
      | some tags => tags.filter fun t => decide (t.attrs.k ≠ JSVal.str propertyName.toString)
      | none => []
    let newTag : Tag := ⟨⟨JSVal.str propertyName.toString, JSVal.str propertyValue.toString⟩⟩
    some { newElement with
      elems := { innerElement with tag := some (filteredTags ++ [newTag]) } :: rest }

/-- `setProperties` (src/src/index.js:331-351).  `properties` is a JavaScript
object, modelled as a key-unique association list (object keys are strings
and unique); mapping over the pairs is `Object.keys` followed by lookup. -/
def setProperties (element : Element) (properties : List (String × JSVal)) : Option Element :=
  let newElement := simpleObjectDeepClone element
  let clonedProperties := properties
  let propertiesName := clonedProperties.map Prod.fst
  match newElement.elems with
  | [] => none
  | innerElement :: rest =>
    let filteredTags :=
      match innerElement.tag with
      | some tags => tags.filter fun t => decide (t.attrs.k ∉ propertiesName.map JSVal.str)
      | none => []
    let formattedProperties := clonedProperties.map fun p =>
      (⟨⟨JSVal.str p.1, JSVal.str p.2.toString⟩⟩ : Tag)
    some { newElement with
      elems := { innerElement with tag := some (filteredTags ++ formattedProperties) } :: rest }

/-- `removeProperty` (src/src/index.js:359-370).  The source calls
`innerElement.tag.filter` unconditionally, so a missing `tag` array throws
(`none` here); note the comparison `tag.$.k !== propertyName` does not
stringify `propertyName`. -/
def removeProperty (element : Element) (propertyName : JSVal) : Option Element :=
  let newElement := simpleObjectDeepClone element
  match newElement.elems with
  | [] => none
  | innerElement :: rest =>
    match innerElement.tag with
    | none => none
    | some tags =>
      let filteredTags := tags.filter fun t => decide (t.attrs.k ≠ propertyName)
      some { newElement with
        elems := { innerElement with tag := some filteredTags } :: rest }

/-- `setCoordinates` (src/src/index.js:379-386): stores `lat.toString()` and
`lon.toString()` on the inner `$` object. -/
def setCoordinates (element : Element) (lat lon : JSVal) : Option Element :=
  let newElement := simpleObjectDeepClone element
  match newElement.elems with
  | [] => none
  | innerElement :: rest =>
    some { newElement with
      elems := { innerElement with attrs := { innerElement.attrs with
        lat := some (JSVal.str lat.toString),
        lon := some (JSVal.str lon.toString) } } :: rest }

/-- `setTimestampToNow` (src/src/index.js:393-399).  Modelled from the spec:
`getCurrentIsoTimestamp` lives in `helpers/time`, which is not under src; the
spec says it stamps the current UTC ISO time, so the ambient clock value is
passed as the explicit argument `now`. -/
def setTimestampToNow (element : Element) (now : String) : Option Element :=
  let newElement := simpleObjectDeepClone element
  match newElement.elems with
  | [] => none
  | innerElement :: rest =>
    some { newElement with
      elems := { innerElement with attrs := { innerElement.attrs with
        timestamp := some (JSVal.str now) } } :: rest }

/-- `setVersion` (src/src/index.js:407-414): stores
`parseInt(version).toString()`; `parseInt` coerces its argument to a string
first. -/
def setVersion (element : Element) (version : JSVal) : Option Element :=
  let newElement := simpleObjectDeepClone element
  match newElement.elems with
  | [] => none
  | innerElement :: rest =>
    some { newElement with
      elems := { innerElement with attrs := { innerElement.attrs with
        version := some (JSVal.str (intDisplay (parseIntJS version.toString))) } } :: rest }

/-- `createNodeElement` (src/src/index.js:236-261): builds a fresh node
document and one tag per key of `properties` (object keys are strings, so
`propertyName.toString()` is the key itself). -/
def createNodeElement (lat lon : JSVal) (properties : List (String × JSVal)) : Element :=
  { osmDollar := []
    etype := ElementType.node
    elems := [{ attrs := { lat := some lat, lon := some lon, version := none, timestamp := none }
                tag := some (properties.map fun p =>
                  (⟨⟨JSVal.str p.1, JSVal.str p.2.toString⟩⟩ : Tag)) }] }

/-- Modelled from the spec: `removeTrailingSlashes` lives in `helpers/utils`,
which is not under src; the spec says the endpoint "is normalized by
stripping trailing slashes". -/
def removeTrailingSlashes (s : String) : String :=
  String.mk ((s.data.reverse.dropWhile fun c => decide (c = '/')).reverse)

/-- The full option set after merging (endpoint plus OAuth credentials). -/
structure OsmOptions where
  endpoint : String
  oauthConsumerKey : String
  oauthSecret : String
  oauthUserToken : String
  oauthUserTokenSecret : String
  deriving DecidableEq, Repr

/-- User-supplied options: each recognized key may be absent. -/
structure UserOptions where
  endpoint : Option String
  oauthConsumerKey : Option String
  oauthSecret : Option String
  oauthUserToken : Option String
  oauthUserTokenSecret : Option String
  deriving DecidableEq, Repr

/-- The constructor (src/src/index.js:37-52): spread-merge the user options
over the defaults, then normalize `endpoint` in place. -/
def constructorOptions (defaults : OsmOptions) (options : UserOptions) : OsmOptions :=
  let merged : OsmOptions :=
    { endpoint := options.endpoint.getD defaults.endpoint
      oauthConsumerKey := options.oauthConsumerKey.getD defaults.oauthConsumerKey
      oauthSecret := options.oauthSecret.getD defaults.oauthSecret
      oauthUserToken := options.oauthUserToken.getD defaults.oauthUserToken
      oauthUserTokenSecret := options.oauthUserTokenSecret.getD defaults.oauthUserTokenSecret }
  { merged with endpoint := removeTrailingSlashes merged.endpoint }

/-- The `endpoint` getter (src/src/index.js:58-60), which every request
method reads. -/
def endpointGetter (defaults : OsmOptions) (options : UserOptions) : String :=
  (constructorOptions defaults options).endpoint

/-- A concrete inner element used to instantiate theorems with hypotheses. -/
def sampleInner : InnerElement :=
  { attrs := { lat := some (JSVal.num 1), lon := some (JSVal.num 2),
               version := none, timestamp := none }
    tag := some [⟨⟨JSVal.str "amenity", JSVal.str "cafe"⟩⟩,
                 ⟨⟨JSVal.str "name", JSVal.str "Old"⟩⟩] }

/-- A concrete element used to instantiate theorems with hypotheses. -/
def sampleElement : Element :=
  { osmDollar := [], etype := ElementType.node, elems := [sampleInner] }

/-- Helper: a second removal with the same key is a no-op. -/
theorem removeProperty_idem (k : JSVal) (F G : Element)
    (h : removeProperty F k = some G) : removeProperty G k = some G := by
  obtain ⟨d, ty, els⟩ := F
  cases els with
  | nil => simp [removeProperty, simpleObjectDeepClone] at h
  | cons i r =>
    obtain ⟨ia, it⟩ := i
    cases it with
    | none => simp [removeProperty, simpleObjectDeepClone] at h
    | some tags =>
      simp only [removeProperty, simpleObjectDeepClone, Option.some.injEq] at h
      subst h
      simp [removeProperty, simpleObjectDeepClone, List.filter_filter]

example :
    setProperty (createNodeElement (JSVal.num 1) (JSVal.num 2) [("name", JSVal.str "a")])
      (JSVal.str "name") (JSVal.str "b") =
    some (createNodeElement (JSVal.num 1) (JSVal.num 2) [("name", JSVal.str "b")]) := by decide

example : parseIntJS "  -42abc" = some (-42) := by decide

example : parseIntJS "abc" = none := by decide

example : ratToString (mkRat 488 10) = "48.8" := by decide

example : removeTrailingSlashes "https://x.org/api///" = "https://x.org/api" := by decide

/-!
Heap-level model.  JavaScript objects and arrays are mutable heap cells; the
deep-copy discipline of the mutators ("return a new copy rather than mutating
the input") is about this heap: the clone allocates fresh cells and the
mutation writes only to fresh cells.  A store is a list of cells addressed by
position; a cell is an object (string-keyed fields) or an array, whose values
are primitives or references.
-/

/-- A JavaScript runtime value: a primitive or a reference to a heap cell. -/
inductive HVal where
  | prim (p : JSVal)
  | ref (a : Nat)
  deriving DecidableEq, Repr

/-- A heap cell: a plain object or an array. -/
inductive HObj where
  | obj (fields : List (String × HVal))
  | arr (elems : List HVal)
  deriving DecidableEq, Repr

/-- The heap: cells addressed by list position. -/
abbrev Store := List HObj

/-- The addresses referenced by a field list. -/
def refsOfFields : List (String × HVal) → List Nat
  | [] => []
  | (_, HVal.ref a) :: rest => a :: refsOfFields rest
  | (_, HVal.prim _) :: rest => refsOfFields rest

/-- The addresses referenced by an array's values. -/
def refsOfVals : List HVal → List Nat
  | [] => []
  | HVal.ref a :: rest => a :: refsOfVals rest
  | HVal.prim _ :: rest => refsOfVals rest

/-- The addresses a cell refers to directly. -/
def refsOf : HObj → List Nat
  | .obj fields => refsOfFields fields
  | .arr vs => refsOfVals vs

/-- Append a fresh cell, returning its address. -/
def alloc (σ : Store) (o : HObj) : Store × Nat := (σ ++ [o], σ.length)

/-- Allocate a tag object `{ $: { k, v } }` (two cells). -/
def allocTag (σ : Store) (t : Tag) : Store × Nat :=
  let r1 := alloc σ (HObj.obj [("k", HVal.prim t.attrs.k), ("v", HVal.prim t.attrs.v)])
  alloc r1.1 (HObj.obj [("$", HVal.ref r1.2)])

/-- Allocate a list of tag objects, returning their addresses in order. -/
def allocTags (σ : Store) : List Tag → Store × List Nat
  | [] => (σ, [])
  | t :: ts =>
    let r1 := allocTag σ t
    let r2 := allocTags r1.1 ts
    (r2.1, r1.2 :: r2.2)

/-- The field list of an inner `$` attributes object (present keys only). -/
def attrsFields (A : InnerAttrs) : List (String × HVal) :=
  (match A.lat with | some v => [("lat", HVal.prim v)] | none => []) ++
  (match A.lon with | some v => [("lon", HVal.prim v)] | none => []) ++
  (match A.version with | some v => [("version", HVal.prim v)] | none => []) ++
  (match A.timestamp with | some v => [("timestamp", HVal.prim v)] | none => [])

/-- Allocate an inner element `{ $: {...}, tag: [...] }` (the `tag` field is
absent when the value has none). -/
def allocInner (σ : Store) (I : InnerElement) : Store × Nat :=
  let rA := alloc σ (HObj.obj (attrsFields I.attrs))
  match I.tag with
  | none => alloc rA.1 (HObj.obj [("$", HVal.ref rA.2)])
  | some tags =>
    let rT := allocTags rA.1 tags
    let rArr := alloc rT.1 (HObj.arr (rT.2.map HVal.ref))
    alloc rArr.1 (HObj.obj [("$", HVal.ref rA.2), ("tag", HVal.ref rArr.2)])

/-- Allocate a list of inner elements. -/
def allocInners (σ : Store) : List InnerElement → Store × List Nat
  | [] => (σ, [])
  | i :: is2 =>
    let r1 := allocInner σ i
    let r2 := allocInners r1.1 is2
    (r2.1, r1.2 :: r2.2)

/-- Modelled from the spec: the heap-level content of `simpleObjectDeepClone`
(`helpers/utils`, not under src), which "returns a deep copy": a fresh,
structurally identical heap representation of the element's value, sharing no
cell with anything previously allocated. -/
def allocElement (σ : Store) (E : Element) : Store × Nat :=
  let rD := alloc σ (HObj.obj (E.osmDollar.map fun p => (p.1, HVal.prim p.2)))
  let rI := allocInners rD.1 E.elems
  let rArr := alloc rI.1 (HObj.arr (rI.2.map HVal.ref))
  let rO := alloc rArr.1 (HObj.obj [("$", HVal.ref rD.2), (typeName E.etype, HVal.ref rArr.2)])
  alloc rO.1 (HObj.obj [("osm", HVal.ref rO.2), ("_type", HVal.prim (JSVal.str (typeName E.etype)))])

/-- Object field lookup. -/
def getField (σ : Store) (a : Nat) (k : String) : Option HVal :=
  match σ[a]? with
  | some (HObj.obj fields) => (fields.find? fun p => decide (p.1 = k)).map Prod.snd
  | _ => none

/-- The address of `element.osm[elementType][0]`, as the mutators navigate. -/
def innerAddr (σ : Store) (r : Nat) (ty : String) : Option Nat :=
  match getField σ r "osm" with
  | some (HVal.ref aOsm) =>
    match getField σ aOsm ty with
    | some (HVal.ref aArr) =>
      match σ[aArr]? with
      | some (HObj.arr (HVal.ref ia :: _)) => some ia
      | _ => none
    | _ => none
  | _ => none

/-- Read `tag.$.k` of a tag object on the heap. -/
def heapTagKey (σ : Store) (b : Nat) : Option JSVal :=
  match getField σ b "$" with
  | some (HVal.ref c) =>
    match getField σ c "k" with
    | some (HVal.prim k) => some k
    | _ => none
  | _ => none

/-- The value list of an inner element's `tag` array, `none` when the `tag`
field is absent (the array undefined). -/
def heapTagList (σ : Store) (ia : Nat) : Option (List HVal) :=
  match getField σ ia "tag" with
  | some (HVal.ref aArr) =>
    match σ[aArr]? with
    | some (HObj.arr vs) => some vs
    | _ => none
  | _ => none

/-- JavaScript field assignment on a field list: replace an existing key or
append a new one. -/
def setField (fields : List (String × HVal)) (k : String) (v : HVal) :
    List (String × HVal) :=
  if fields.any fun p => decide (p.1 = k) then
    fields.map fun p => if p.1 = k then (k, v) else p
  else fields ++ [(k, v)]

/-- JavaScript field assignment `σ[a].k = v` (fails on a non-object cell). -/
def writeField (σ : Store) (a : Nat) (k : String) (v : HVal) : Option Store :=
  match σ[a]? with
  | some (HObj.obj fields) => some (σ.set a (HObj.obj (setField fields k v)))
  | _ => none

/-- Heap-level `setProperty`: deep-clone, filter the clone's tag objects by
key, allocate the new tag and the new array, and assign the clone's `tag`
field.  The element argument value is `element` (the callee reads only its
value); `none` models the thrown TypeError. -/
def heapSetProperty (σ : Store) (element : Element) (propertyName propertyValue : JSVal) :
    Option (Store × Nat) :=
  let rC := allocElement σ element
  match innerAddr rC.1 rC.2 (typeName element.etype) with
  | none => none
  | some ia =>
    let existing := (heapTagList rC.1 ia).getD []
    let filtered := existing.filter fun tv =>
      match tv with
      | HVal.ref b =>
        match heapTagKey rC.1 b with
        | some kk => decide (kk ≠ JSVal.str propertyName.toString)
        | none => true
      | _ => true
    let rT := allocTag rC.1 ⟨⟨JSVal.str propertyName.toString, JSVal.str propertyValue.toString⟩⟩
    let rArr := alloc rT.1 (HObj.arr (filtered ++ [HVal.ref rT.2]))
    match writeField rArr.1 ia "tag" (HVal.ref rArr.2) with
    | some σ4 => some (σ4, rC.2)
    | none => none

/-- Heap-level `setProperties`: like `heapSetProperty`, with a batch filter
and one fresh tag object per property. -/
def heapSetProperties (σ : Store) (element : Element) (properties : List (String × JSVal)) :
    Option (Store × Nat) :=
  let rC := allocElement σ element
  let propertiesName := properties.map Prod.fst
  match innerAddr rC.1 rC.2 (typeName element.etype) with
  | none => none
  | some ia =>
    let existing := (heapTagList rC.1 ia).getD []
    let filtered := existing.filter fun tv =>
      match tv with
      | HVal.ref b =>
        match heapTagKey rC.1 b with
        | some kk => decide (kk ∉ propertiesName.map JSVal.str)
        | none => true
      | _ => true
    let rT := allocTags rC.1 (properties.map fun p =>
      ⟨⟨JSVal.str p.1, JSVal.str p.2.toString⟩⟩)
    let rArr := alloc rT.1 (HObj.arr (filtered ++ rT.2.map HVal.ref))
    match writeField rArr.1 ia "tag" (HVal.ref rArr.2) with
    | some σ4 => some (σ4, rC.2)
    | none => none

/-- Heap-level `removeProperty`: fails when the clone's `tag` array is absent
(`.filter` on undefined), otherwise allocates the filtered array and assigns
it. -/
def heapRemoveProperty (σ : Store) (element : Element) (propertyName : JSVal) :
    Option (Store × Nat) :=
  let rC := allocElement σ element
  match innerAddr rC.1 rC.2 (typeName element.etype) with
  | none => none
  | some ia =>
    match heapTagList rC.1 ia with
    | none => none
    | some existing =>
      let filtered := existing.filter fun tv =>
        match tv with
        | HVal.ref b =>
          match heapTagKey rC.1 b with
          | some kk => decide (kk ≠ propertyName)
          | none => true
        | _ => true
      let rArr := alloc rC.1 (HObj.arr filtered)
      match writeField rArr.1 ia "tag" (HVal.ref rArr.2) with
      | some σ4 => some (σ4, rC.2)
      | none => none

/-- Heap-level `setCoordinates`: deep-clone, then assign `$.lat` and `$.lon`
on the clone. -/
def heapSetCoordinates (σ : Store) (element : Element) (lat lon : JSVal) :
    Option (Store × Nat) :=
  let rC := allocElement σ element
  match innerAddr rC.1 rC.2 (typeName element.etype) with
  | none => none
  | some ia =>
    match getField rC.1 ia "$" with
    | some (HVal.ref aA) =>
      match writeField rC.1 aA "lat" (HVal.prim (JSVal.str lat.toString)) with
      | some σ2 =>
        match writeField σ2 aA "lon" (HVal.prim (JSVal.str lon.toString)) with
        | some σ3 => some (σ3, rC.2)
        | none => none
      | none => none
    | _ => none

/-- Heap-level `setTimestampToNow`: deep-clone, then assign `$.timestamp` on
the clone (`now` is the ambient clock value, as in the pure model). -/
def heapSetTimestampToNow (σ : Store) (element : Element) (now : String) :
    Option (Store × Nat) :=
  let rC := allocElement σ element
  match innerAddr rC.1 rC.2 (typeName element.etype) with
  | none => none
  | some ia =>
    match getField rC.1 ia "$" with
    | some (HVal.ref aA) =>
      match writeField rC.1 aA "timestamp" (HVal.prim (JSVal.str now)) with
      | some σ2 => some (σ2, rC.2)
      | none => none
    | _ => none

/-- Heap-level `setVersion`: deep-clone, then assign `$.version` on the
clone. -/
def heapSetVersion (σ : Store) (element : Element) (version : JSVal) :
    Option (Store × Nat) :=
  let rC := allocElement σ element
  match innerAddr rC.1 rC.2 (typeName element.etype) with
  | none => none
  | some ia =>
    match getField rC.1 ia "$" with
    | some (HVal.ref aA) =>
      match writeField rC.1 aA "version"
          (HVal.prim (JSVal.str (intDisplay (parseIntJS version.toString)))) with
      | some σ2 => some (σ2, rC.2)
      | none => none
    | _ => none

/-- Take an optional leading primitive field with the given name. -/
def takeOpt (name : String) : List (String × HVal) → Option JSVal × List (String × HVal)
  | [] => (none, [])
  | (k, v) :: rest =>
    if k = name then
      match v with
      | HVal.prim p => (some p, rest)
      | HVal.ref _ => (none, (k, v) :: rest)
    else (none, (k, v) :: rest)

/-- Parse an inner `$` attributes object back into its value. -/
def readAttrsObj (fields : List (String × HVal)) : Option InnerAttrs :=
  let r1 := takeOpt "lat" fields
  let r2 := takeOpt "lon" r1.2
  let r3 := takeOpt "version" r2.2
  let r4 := takeOpt "timestamp" r3.2
  if r4.2 = [] then some ⟨r1.1, r2.1, r3.1, r4.1⟩ else none

/-- Parse a primitive-only field list back into key/value pairs. -/
def readPrimFields : List (String × HVal) → Option (List (String × JSVal))
  | [] => some []
  | (k, HVal.prim v) :: rest => (readPrimFields rest).map fun l => (k, v) :: l
  | (_, HVal.ref _) :: _ => none

/-- Read a tag object value from the heap. -/
def readTagAt (σ : Store) (v : HVal) : Option Tag :=
  match v with
  | HVal.ref a =>
    match σ[a]? with
    | some (HObj.obj [("$", HVal.ref b)]) =>
      match σ[b]? with
      | some (HObj.obj [("k", HVal.prim k), ("v", HVal.prim vv)]) => some ⟨⟨k, vv⟩⟩
      | _ => none
    | _ => none
  | _ => none

/-- Read a list of tag objects. -/
def readTags (σ : Store) : List HVal → Option (List Tag)
  | [] => some []
  | v :: rest =>
    match readTagAt σ v, readTags σ rest with
    | some t, some ts => some (t :: ts)
    | _, _ => none

/-- Read an inner element from the heap. -/
def readInnerAt (σ : Store) (v : HVal) : Option InnerElement :=
  match v with
  | HVal.ref a =>
    match σ[a]? with
    | some (HObj.obj [("$", HVal.ref b)]) =>
      match σ[b]? with
      | some (HObj.obj aFields) =>
        match readAttrsObj aFields with
        | some A => some ⟨A, none⟩
        | none => none
      | _ => none
    | some (HObj.obj [("$", HVal.ref b), ("tag", HVal.ref c)]) =>
      match σ[b]?, σ[c]? with
      | some (HObj.obj aFields), some (HObj.arr vs) =>
        match readAttrsObj aFields, readTags σ vs with
        | some A, some tags => some ⟨A, some tags⟩
        | _, _ => none
      | _, _ => none
    | _ => none
  | _ => none

/-- Read a list of inner elements. -/
def readInners (σ : Store) : List HVal → Option (List InnerElement)
  | [] => some []
  | v :: rest =>
    match readInnerAt σ v, readInners σ rest with
    | some i, some is2 => some (i :: is2)
    | _, _ => none

/-- Parse an element type name. -/
def parseType (s : String) : Option ElementType :=
  if s = "node" then some ElementType.node
  else if s = "way" then some ElementType.way
  else if s = "relation" then some ElementType.relation
  else none

/-- Read a whole element document rooted at address `a`. -/
def readElement (σ : Store) (a : Nat) : Option Element :=
  match σ[a]? with
  | some (HObj.obj [("osm", HVal.ref aOsm), ("_type", HVal.prim (JSVal.str tyStr))]) =>
    match parseType tyStr with
    | none => none
    | some ty =>
      match σ[aOsm]? with
      | some (HObj.obj [("$", HVal.ref aD), (tyKey, HVal.ref aArr)]) =>
        if tyKey = tyStr then
          match σ[aD]?, σ[aArr]? with
          | some (HObj.obj dFields), some (HObj.arr vs) =>
            match readPrimFields dFields, readInners σ vs with
            | some dollar, some inners => some ⟨dollar, ty, inners⟩
            | _, _ => none
          | _, _ => none
        else none
      | _ => none
  | _ => none

/-- No dangling references anywhere in the store. -/
def WFStore (σ : Store) : Prop := ∀ o ∈ σ, ∀ d ∈ refsOf o, d < σ.length

/-- Every cell at or above `n` refers only to cells at or above `n`. -/
def FreshClosed (σ : Store) (n : Nat) : Prop :=
  ∀ a o, n ≤ a → σ[a]? = some o → ∀ d ∈ refsOf o, n ≤ d

/-- Heap reachability by following references. -/
inductive Reaches (σ : Store) : Nat → Nat → Prop where
  | refl (a : Nat) : Reaches σ a a
  | step {a b c : Nat} (o : HObj) (ha : σ[a]? = some o) (hb : b ∈ refsOf o)
      (hc : Reaches σ b c) : Reaches σ a c

example : (allocElement [] sampleElement).2 = (allocElement [] sampleElement).1.length - 1 := by
  decide

example : readElement (allocElement [] sampleElement).1 (allocElement [] sampleElement).2 =
    some sampleElement := by decide

/-- A block of cells whose references all point at or above `n`. -/
def FreshBlock (n : Nat) (Δ : List HObj) : Prop :=
  ∀ o ∈ Δ, ∀ d ∈ refsOf o, n ≤ d

theorem freshBlock_mono (m n : Nat) (Δ : List HObj) (hmn : m ≤ n)
    (h : FreshBlock n Δ) : FreshBlock m Δ :=
  fun o ho d hd => le_trans hmn (h o ho d hd)

theorem freshBlock_append (n : Nat) (Δ1 Δ2 : List HObj)
    (h1 : FreshBlock n Δ1) (h2 : FreshBlock n Δ2) : FreshBlock n (Δ1 ++ Δ2) := by
  intro o ho d hd
  rcases List.mem_append.mp ho with h | h
  · exact h1 o h d hd
  · exact h2 o h d hd

theorem lookup_bound (σ : Store) (x : Nat) (o : HObj) (h : σ[x]? = some o) :
    x < σ.length :=
  (List.getElem?_eq_some.mp h).1

theorem lookup_stable (σ σ2 : Store) (x : Nat) (o : HObj)
    (hpre : ∀ i, i < σ.length → σ2[i]? = σ[i]?) (h : σ[x]? = some o) :
    σ2[x]? = some o := by
  rw [hpre x (lookup_bound σ x o h)]
  exact h

theorem getElem?_append_of_some (l1 l2 : Store) (x : Nat) (o : HObj)
    (h : l1[x]? = some o) : (l1 ++ l2)[x]? = some o := by
  rw [List.getElem?_append_left (lookup_bound l1 x o h)]
  exact h

theorem lookup_append_at (σ Δ : Store) (j : Nat) :
    (σ ++ Δ)[σ.length + j]? = Δ[j]? := by
  rw [List.getElem?_append_right (Nat.le_add_right _ _)]
  simp

theorem prefix_append (σ : Store) (Δ : List HObj) :
    ∀ i, i < σ.length → (σ ++ Δ)[i]? = σ[i]? :=
  fun _ hi => List.getElem?_append_left hi

theorem freshClosed_of_le (σ : Store) (n : Nat) (h : σ.length ≤ n) :
    FreshClosed σ n := by
  intro a o ha hs
  have := lookup_bound σ a o hs
  omega

theorem freshClosed_append (σ : Store) (Δ : List HObj) (n : Nat)
    (h : FreshClosed σ n) (hΔ : FreshBlock n Δ) : FreshClosed (σ ++ Δ) n := by
  intro a o ha hs d hd
  by_cases hlt : a < σ.length
  · rw [List.getElem?_append_left hlt] at hs
    exact h a o ha hs d hd
  · rw [List.getElem?_append_right (Nat.le_of_not_lt hlt)] at hs
    exact hΔ o (List.getElem?_mem hs) d hd

theorem freshClosed_set (σ : Store) (i : Nat) (o : HObj) (n : Nat)
    (h : FreshClosed σ n) (ho : ∀ d ∈ refsOf o, n ≤ d) :
    FreshClosed (σ.set i o) n := by
  intro a o2 ha hs d hd
  by_cases hia : a = i
  · subst hia
    by_cases hlt : a < σ.length
    · rw [List.getElem?_set_self hlt] at hs
      cases hs
      exact ho d hd
    · rw [List.set_eq_of_length_le (Nat.le_of_not_lt hlt)] at hs
      exact h a o2 ha hs d hd
  · rw [List.getElem?_set_ne (fun he => hia he.symm)] at hs
    exact h a o2 ha hs d hd

theorem reaches_ge (σ : Store) (n : Nat) (hf : FreshClosed σ n) (a b : Nat)
    (ha : n ≤ a) (h : Reaches σ a b) : n ≤ b := by
  induction h with
  | refl c => exact ha
  | step o h1 h2 _ ih => exact ih (hf _ o ha h1 _ h2)

theorem reaches_lt (σ σ2 : Store) (hwf : WFStore σ)
    (hpre : ∀ i, i < σ.length → σ2[i]? = σ[i]?) (a b : Nat)
    (ha : a < σ.length) (h : Reaches σ2 a b) : b < σ.length := by
  induction h with
  | refl c => exact ha
  | step o h1 h2 _ ih =>
    rw [hpre _ ha] at h1
    exact ih (hwf o (List.getElem?_mem h1) _ h2)

theorem refsOfVals_map_ref (l : List Nat) : refsOfVals (l.map HVal.ref) = l := by
  induction l with
  | nil => rfl
  | cons x xs ih => simp [refsOfVals, ih]

theorem refsOfFields_map_prim (l : List (String × JSVal)) :
    refsOfFields (l.map fun p => (p.1, HVal.prim p.2)) = [] := by
  induction l with
  | nil => rfl
  | cons x xs ih => simp [refsOfFields, ih]

theorem refsOfFields_attrs (A : InnerAttrs) : refsOfFields (attrsFields A) = [] := by
  obtain ⟨l1, l2, l3, l4⟩ := A
  cases l1 <;> cases l2 <;> cases l3 <;> cases l4 <;> rfl

theorem mem_refsOfFields (F : List (String × HVal)) (d : Nat) :
    d ∈ refsOfFields F ↔ ∃ k, (k, HVal.ref d) ∈ F := by
  induction F with
  | nil => simp [refsOfFields]
  | cons p ps ih =>
    obtain ⟨k0, v0⟩ := p
    cases v0 with
    | prim q =>
      simp only [refsOfFields, ih, List.mem_cons]
      constructor
      · rintro ⟨k, hk⟩
        exact ⟨k, Or.inr hk⟩
      · rintro ⟨k, hk | hk⟩
        · exact absurd hk (by simp)
        · exact ⟨k, hk⟩
    | ref a =>
      simp only [refsOfFields, List.mem_cons, ih]
      constructor
      · rintro (rfl | ⟨k, hk⟩)
        · exact ⟨k0, Or.inl rfl⟩
        · exact ⟨k, Or.inr hk⟩
      · rintro ⟨k, hk | hk⟩
        · have : k = k0 ∧ HVal.ref d = HVal.ref a := by
            constructor <;> [exact congrArg Prod.fst hk; exact congrArg Prod.snd hk]
          cases this.2
          exact Or.inl rfl
        · exact Or.inr ⟨k, hk⟩

theorem allocTag_eq (σ : Store) (t : Tag) :
    allocTag σ t = (σ ++ [HObj.obj [("k", HVal.prim t.attrs.k), ("v", HVal.prim t.attrs.v)],
      HObj.obj [("$", HVal.ref σ.length)]], σ.length + 1) := by
  simp [allocTag, alloc]

theorem allocTags_cons (σ : Store) (t : Tag) (ts : List Tag) :
    allocTags σ (t :: ts) =
      ((allocTags (allocTag σ t).1 ts).1,
        (allocTag σ t).2 :: (allocTags (allocTag σ t).1 ts).2) := rfl

theorem allocTags_spec (ts : List Tag) : ∀ (σ σ2 : Store) (addrs : List Nat),
    allocTags σ ts = (σ2, addrs) →
    ∃ Δ, σ2 = σ ++ Δ ∧ FreshBlock σ.length Δ ∧
      ∀ x ∈ addrs, σ.length ≤ x ∧ x < σ2.length := by
  induction ts with
  | nil =>
    intro σ σ2 addrs h
    simp only [allocTags] at h
    cases h
    refine ⟨[], by simp, ?_, ?_⟩
    · intro o ho
      exact absurd ho (List.not_mem_nil o)
    · intro x hx
      exact absurd hx (List.not_mem_nil x)
  | cons t ts ih =>
    intro σ σ2 addrs h
    rw [allocTags_cons, allocTag_eq] at h
    dsimp only at h
    rcases hRec : allocTags (σ ++ [HObj.obj [("k", HVal.prim t.attrs.k),
      ("v", HVal.prim t.attrs.v)], HObj.obj [("$", HVal.ref σ.length)]]) ts with ⟨σr, ar⟩
    rw [hRec] at h
    simp only [Prod.mk.injEq] at h
    obtain ⟨hA, hB⟩ := h
    subst hA
    subst hB
    obtain ⟨Δ2, hΔ2, hFB2, hBnd2⟩ := ih _ σr ar hRec
    have hσtlen : (σ ++ [HObj.obj [("k", HVal.prim t.attrs.k), ("v", HVal.prim t.attrs.v)],
        HObj.obj [("$", HVal.ref σ.length)]]).length = σ.length + 2 := by simp
    refine ⟨[HObj.obj [("k", HVal.prim t.attrs.k), ("v", HVal.prim t.attrs.v)],
      HObj.obj [("$", HVal.ref σ.length)]] ++ Δ2, ?_, ?_, ?_⟩
    · rw [hΔ2, List.append_assoc]
    · refine freshBlock_append _ _ _ ?_ ?_
      · intro o ho d hd
        simp only [List.mem_cons, List.not_mem_nil, or_false] at ho
        rcases ho with rfl | rfl
        · simp [refsOf, refsOfFields] at hd
        · simp only [refsOf, refsOfFields, List.mem_singleton] at hd
          omega
      · rw [hσtlen] at hFB2
        exact freshBlock_mono _ _ _ (by omega) hFB2
    · intro x hx
      have hlenr : (σ ++ [HObj.obj [("k", HVal.prim t.attrs.k),
          ("v", HVal.prim t.attrs.v)], HObj.obj [("$", HVal.ref σ.length)]]).length ≤
          σr.length := by
        rw [hΔ2]
        simp
      rw [hσtlen] at hlenr
      simp only [List.mem_cons] at hx
      rcases hx with rfl | hx2
      · exact ⟨by omega, by omega⟩
      · obtain ⟨hx3, hx4⟩ := hBnd2 x hx2
        rw [hσtlen] at hx3
        exact ⟨by omega, hx4⟩

theorem allocInner_spec (σ σ2 : Store) (I : InnerElement) (a : Nat)
    (h : allocInner σ I = (σ2, a)) :
    ∃ Δ aA fields, σ2 = σ ++ Δ ∧ FreshBlock σ.length Δ ∧
      σ.length ≤ a ∧ a < σ2.length ∧
      σ2[a]? = some (HObj.obj fields) ∧
      σ.length ≤ aA ∧ σ2[aA]? = some (HObj.obj (attrsFields I.attrs)) ∧
      ((I.tag = none ∧ fields = [("$", HVal.ref aA)]) ∨
       (∃ tags aT vs, I.tag = some tags ∧
          fields = [("$", HVal.ref aA), ("tag", HVal.ref aT)] ∧ σ.length ≤ aT ∧
          σ2[aT]? = some (HObj.arr vs) ∧
          ∀ v ∈ vs, ∃ b, v = HVal.ref b ∧ σ.length ≤ b)) := by
  obtain ⟨Aattrs, itag⟩ := I
  cases itag with
  | none =>
    simp only [allocInner, alloc] at h
    cases h
    refine ⟨[HObj.obj (attrsFields Aattrs), HObj.obj [("$", HVal.ref σ.length)]],
      σ.length, [("$", HVal.ref σ.length)], by simp, ?_, by simp, by simp,
      List.getElem?_concat_length _ _, le_refl _,
      getElem?_append_of_some _ _ _ _ (List.getElem?_concat_length _ _),
      Or.inl ⟨rfl, rfl⟩⟩
    intro o ho d hd
    simp only [List.mem_cons, List.not_mem_nil, or_false] at ho
    rcases ho with rfl | rfl
    · rw [refsOf, refsOfFields_attrs] at hd
      exact absurd hd (List.not_mem_nil d)
    · simp only [refsOf, refsOfFields, List.mem_singleton] at hd
      omega
  | some tags =>
    simp only [allocInner, alloc] at h
    rcases hT : allocTags (σ ++ [HObj.obj (attrsFields Aattrs)]) tags with ⟨σT, addrs⟩
    rw [hT] at h
    dsimp only at h
    simp only [Prod.mk.injEq] at h
    obtain ⟨hA, hB⟩ := h
    subst hA
    subst hB
    obtain ⟨ΔT, hΔT, hFBT, hBndT⟩ := allocTags_spec tags _ σT addrs hT
    have hlen1 : (σ ++ [HObj.obj (attrsFields Aattrs)]).length = σ.length + 1 := by simp
    have hσTlen : σ.length + 1 ≤ σT.length := by
      rw [hΔT]
      simp only [List.length_append, List.length_cons, List.length_nil]
      omega
    have hlenArr : (σT ++ [HObj.arr (addrs.map HVal.ref)]).length = σT.length + 1 := by simp
    refine ⟨[HObj.obj (attrsFields Aattrs)] ++ ΔT ++
      [HObj.arr (addrs.map HVal.ref),
       HObj.obj [("$", HVal.ref σ.length), ("tag", HVal.ref σT.length)]],
      σ.length, [("$", HVal.ref σ.length), ("tag", HVal.ref σT.length)], ?_, ?_,
      by rw [hlenArr]; omega, by simp, List.getElem?_concat_length _ _, le_refl _, ?_,
      Or.inr ⟨tags, σT.length, addrs.map HVal.ref, rfl, rfl, by omega, ?_, ?_⟩⟩
    · rw [hΔT]
      simp [List.append_assoc]
    · refine freshBlock_append _ _ _ (freshBlock_append _ _ _ ?_ ?_) ?_
      · intro o ho d hd
        simp only [List.mem_singleton] at ho
        subst ho
        rw [refsOf, refsOfFields_attrs] at hd
        exact absurd hd (List.not_mem_nil d)
      · rw [hlen1] at hFBT
        exact freshBlock_mono _ _ _ (by omega) hFBT
      · intro o ho d hd
        simp only [List.mem_cons, List.not_mem_nil, or_false] at ho
        rcases ho with rfl | rfl
        · rw [refsOf, refsOfVals_map_ref] at hd
          have h5 := (hBndT d hd).1
          rw [hlen1] at h5
          omega
        · simp only [refsOf, refsOfFields, List.mem_cons, List.mem_singleton,
            List.not_mem_nil, or_false] at hd
          rcases hd with rfl | rfl
          · exact le_refl _
          · omega
    · refine getElem?_append_of_some _ _ _ _ ?_
      refine getElem?_append_of_some _ _ _ _ ?_
      rw [hΔT]
      refine getElem?_append_of_some _ _ _ _ ?_
      exact List.getElem?_concat_length _ _
    · refine getElem?_append_of_some _ _ _ _ (List.getElem?_concat_length _ _)
    · intro v hv
      obtain ⟨b, hb, hbe⟩ := List.mem_map.mp hv
      obtain ⟨hb1, _⟩ := hBndT b hb
      rw [hlen1] at hb1
      exact ⟨b, hbe.symm, by omega⟩

theorem allocInners_cons (σ : Store) (i : InnerElement) (is2 : List InnerElement) :
    allocInners σ (i :: is2) =
      ((allocInners (allocInner σ i).1 is2).1,
        (allocInner σ i).2 :: (allocInners (allocInner σ i).1 is2).2) := rfl

theorem allocInners_spec (els : List InnerElement) : ∀ (σ σ2 : Store) (addrs : List Nat),
    allocInners σ els = (σ2, addrs) →
    ∃ Δ, σ2 = σ ++ Δ ∧ FreshBlock σ.length Δ ∧
      ∀ x ∈ addrs, σ.length ≤ x ∧ x < σ2.length := by
  induction els with
  | nil =>
    intro σ σ2 addrs h
    simp only [allocInners] at h
    cases h
    exact ⟨[], by simp, fun o ho => absurd ho (List.not_mem_nil o),
      fun x hx => absurd hx (List.not_mem_nil x)⟩
  | cons i is2 ih =>
    intro σ σ2 addrs h
    rw [allocInners_cons] at h
    rcases hI : allocInner σ i with ⟨σi, ai⟩
    rw [hI] at h
    dsimp only at h
    rcases hRec : allocInners σi is2 with ⟨σr, ar⟩
    rw [hRec] at h
    simp only [Prod.mk.injEq] at h
    obtain ⟨hA, hB⟩ := h
    subst hA
    subst hB
    obtain ⟨Δ1, _, _, hσi, hFB1, hai1, hai2, _, _, _, _⟩ := allocInner_spec σ σi i ai hI
    obtain ⟨Δ2, hΔ2, hFB2, hBnd2⟩ := ih σi σr ar hRec
    have hσilen : σ.length ≤ σi.length := by
      rw [hσi]
      simp
    have hσrlen : σi.length ≤ σr.length := by
      rw [hΔ2]
      simp
    refine ⟨Δ1 ++ Δ2, ?_, ?_, ?_⟩
    · rw [hΔ2, hσi, List.append_assoc]
    · exact freshBlock_append _ _ _ hFB1 (freshBlock_mono _ _ _ hσilen hFB2)
    · intro x hx
      simp only [List.mem_cons] at hx
      rcases hx with rfl | hx2
      · exact ⟨hai1, by omega⟩
      · obtain ⟨hx3, hx4⟩ := hBnd2 x hx2
        exact ⟨by omega, hx4⟩

theorem typeName_ne_dollar (ty : ElementType) : decide ("$" = typeName ty) = false := by
  cases ty <;> rfl

theorem allocElement_spec (σ σ2 : Store) (E : Element) (r : Nat) (I : InnerElement)
    (rest : List InnerElement) (helems : E.elems = I :: rest)
    (h : allocElement σ E = (σ2, r)) :
    ∃ Δ ia aA fields, σ2 = σ ++ Δ ∧ FreshBlock σ.length Δ ∧
      σ.length ≤ r ∧ r < σ2.length ∧
      innerAddr σ2 r (typeName E.etype) = some ia ∧ σ.length ≤ ia ∧
      σ2[ia]? = some (HObj.obj fields) ∧
      σ.length ≤ aA ∧ σ2[aA]? = some (HObj.obj (attrsFields I.attrs)) ∧
      ((I.tag = none ∧ fields = [("$", HVal.ref aA)]) ∨
       (∃ tags aT vs, I.tag = some tags ∧
          fields = [("$", HVal.ref aA), ("tag", HVal.ref aT)] ∧ σ.length ≤ aT ∧
          σ2[aT]? = some (HObj.arr vs) ∧
          ∀ v ∈ vs, ∃ b, v = HVal.ref b ∧ σ.length ≤ b)) := by
  simp only [allocElement, alloc] at h
  rw [helems, allocInners_cons] at h
  rcases hI : allocInner (σ ++ [HObj.obj (E.osmDollar.map fun p => (p.1, HVal.prim p.2))]) I
    with ⟨σi, ia0⟩
  rw [hI] at h
  dsimp only at h
  rcases hR : allocInners σi rest with ⟨σR, arR⟩
  rw [hR] at h
  dsimp only at h
  simp only [Prod.mk.injEq] at h
  obtain ⟨hA, hB⟩ := h
  subst hA
  subst hB
  obtain ⟨Δ1, aA, fieldsI, hσi, hFB1, hai1, hai2, hIobj, haA1, haAobj, hbranch⟩ :=
    allocInner_spec _ σi I ia0 hI
  obtain ⟨Δ2, hσR, hFB2, hBndR⟩ := allocInners_spec rest σi σR arR hR
  have hlenD : (σ ++ [HObj.obj (E.osmDollar.map fun p => (p.1, HVal.prim p.2))]).length =
      σ.length + 1 := by simp
  have hσilen : σ.length + 1 ≤ σi.length := by
    rw [hσi]
    simp only [List.length_append, List.length_cons, List.length_nil]
    omega
  have hσRlen : σi.length ≤ σR.length := by
    rw [hσR]
    simp
  rw [hlenD] at hai1 haA1 hFB1
  have hai2R : ia0 < σR.length := by omega
  have hliftI : ∀ (x : Nat) (o : HObj), σi[x]? = some o →
      ((((σR ++ [HObj.arr (List.map HVal.ref (ia0 :: arR))]) ++
        [HObj.obj [("$", HVal.ref σ.length), (typeName E.etype, HVal.ref σR.length)]]) ++
        [HObj.obj [("osm", HVal.ref (σR ++ [HObj.arr (List.map HVal.ref (ia0 :: arR))]).length),
          ("_type", HVal.prim (JSVal.str (typeName E.etype)))]])[x]? = some o) := by
    intro x o hx
    refine getElem?_append_of_some _ _ _ _ ?_
    refine getElem?_append_of_some _ _ _ _ ?_
    refine getElem?_append_of_some _ _ _ _ ?_
    rw [hσR]
    exact getElem?_append_of_some _ _ _ _ hx
  have hroot := List.getElem?_concat_length
    ((σR ++ [HObj.arr (List.map HVal.ref (ia0 :: arR))]) ++
      [HObj.obj [("$", HVal.ref σ.length), (typeName E.etype, HVal.ref σR.length)]])
    (HObj.obj [("osm", HVal.ref (σR ++ [HObj.arr (List.map HVal.ref (ia0 :: arR))]).length),
      ("_type", HVal.prim (JSVal.str (typeName E.etype)))])
  have hosm := getElem?_append_of_some _
    [HObj.obj [("osm", HVal.ref (σR ++ [HObj.arr (List.map HVal.ref (ia0 :: arR))]).length),
      ("_type", HVal.prim (JSVal.str (typeName E.etype)))]] _ _
    (List.getElem?_concat_length (σR ++ [HObj.arr (List.map HVal.ref (ia0 :: arR))])
      (HObj.obj [("$", HVal.ref σ.length), (typeName E.etype, HVal.ref σR.length)]))
  have harr := getElem?_append_of_some _
    [HObj.obj [("osm", HVal.ref (σR ++ [HObj.arr (List.map HVal.ref (ia0 :: arR))]).length),
      ("_type", HVal.prim (JSVal.str (typeName E.etype)))]] _ _
    (getElem?_append_of_some _
      [HObj.obj [("$", HVal.ref σ.length), (typeName E.etype, HVal.ref σR.length)]] _ _
      (List.getElem?_concat_length σR (HObj.arr (List.map HVal.ref (ia0 :: arR)))))
  refine ⟨[HObj.obj (E.osmDollar.map fun p => (p.1, HVal.prim p.2))] ++ Δ1 ++ Δ2 ++
    [HObj.arr (List.map HVal.ref (ia0 :: arR)),
     HObj.obj [("$", HVal.ref σ.length), (typeName E.etype, HVal.ref σR.length)],
     HObj.obj [("osm", HVal.ref (σR ++ [HObj.arr (List.map HVal.ref (ia0 :: arR))]).length),
       ("_type", HVal.prim (JSVal.str (typeName E.etype)))]],
    ia0, aA, fieldsI, ?_, ?_, by simp; omega, by simp, ?_, by omega,
    hliftI ia0 (HObj.obj fieldsI) hIobj, by omega,
    hliftI aA (HObj.obj (attrsFields I.attrs)) haAobj, ?_⟩
  · rw [hσR, hσi]
    simp [List.append_assoc]
  · refine freshBlock_append _ _ _ (freshBlock_append _ _ _ (freshBlock_append _ _ _ ?_ ?_) ?_) ?_
    · intro o ho d hd
      simp only [List.mem_singleton] at ho
      subst ho
      rw [refsOf, refsOfFields_map_prim] at hd
      exact absurd hd (List.not_mem_nil d)
    · exact freshBlock_mono _ _ _ (by omega) hFB1
    · exact freshBlock_mono _ _ _ (by omega) hFB2
    · intro o ho d hd
      simp only [List.mem_cons, List.not_mem_nil, or_false] at ho
      rcases ho with rfl | rfl | rfl
      · rw [refsOf] at hd
        rw [List.map_cons] at hd
        simp only [refsOfVals, refsOfVals_map_ref, List.mem_cons] at hd
        rcases hd with rfl | hd2
        · omega
        · have h5 := (hBndR d hd2).1
          omega
      · simp only [refsOf, refsOfFields, List.mem_cons, List.mem_singleton,
          List.not_mem_nil, or_false] at hd
        rcases hd with rfl | rfl
        · exact le_refl _
        · omega
      · simp only [refsOf, refsOfFields, List.mem_singleton] at hd
        subst hd
        simp only [List.length_append, List.length_cons, List.length_nil]
        omega
  · have hA2 : (σR ++ [HObj.arr (HVal.ref ia0 :: List.map HVal.ref arR),
        HObj.obj [("$", HVal.ref σ.length), (typeName E.etype, HVal.ref σR.length)],
        HObj.obj [("osm", HVal.ref (σR.length + 1)),
          ("_type", HVal.prim (JSVal.str (typeName E.etype)))]])[σR.length + 1]? =
        some (HObj.obj [("$", HVal.ref σ.length),
          (typeName E.etype, HVal.ref σR.length)]) := by
      rw [lookup_append_at σR _ 1]
      rfl
    have hA1 : (σR ++ [HObj.arr (HVal.ref ia0 :: List.map HVal.ref arR),
        HObj.obj [("$", HVal.ref σ.length), (typeName E.etype, HVal.ref σR.length)],
        HObj.obj [("osm", HVal.ref (σR.length + 1)),
          ("_type", HVal.prim (JSVal.str (typeName E.etype)))]])[σR.length]? =
        some (HObj.arr (HVal.ref ia0 :: List.map HVal.ref arR)) := by
      have h9 := lookup_append_at σR [HObj.arr (HVal.ref ia0 :: List.map HVal.ref arR),
        HObj.obj [("$", HVal.ref σ.length), (typeName E.etype, HVal.ref σR.length)],
        HObj.obj [("osm", HVal.ref (σR.length + 1)),
          ("_type", HVal.prim (JSVal.str (typeName E.etype)))]] 0
      simpa using h9
    simp only [innerAddr, getField, hroot, hosm, harr]
    simp [List.find?_cons, typeName_ne_dollar, List.map_cons, hA2, hA1]
  · rcases hbranch with ⟨htag, hf⟩ | ⟨tags, aT, vs, htag, hf, haT, haTobj, hvs⟩
    · exact Or.inl ⟨htag, hf⟩
    · rw [hlenD] at haT
      refine Or.inr ⟨tags, aT, vs, htag, hf, by omega,
        hliftI aT (HObj.arr vs) haTobj, ?_⟩
      intro v hv
      obtain ⟨b, hb1, hb2⟩ := hvs v hv
      rw [hlenD] at hb2
      exact ⟨b, hb1, by omega⟩

theorem mem_refsOfVals (l : List HVal) (d : Nat) :
    d ∈ refsOfVals l ↔ HVal.ref d ∈ l := by
  induction l with
  | nil => simp [refsOfVals]
  | cons v vs ih =>
    cases v with
    | prim q =>
      simp only [refsOfVals, ih, List.mem_cons]
      constructor
      · exact fun h => Or.inr h
      · rintro (h | h)
        · exact absurd h (by simp)
        · exact h
    | ref a =>
      simp only [refsOfVals, List.mem_cons, ih]
      constructor
      · rintro (rfl | h)
        · exact Or.inl rfl
        · exact Or.inr h
      · rintro (h | h)
        · cases h
          exact Or.inl rfl
        · exact Or.inr h

theorem setField_refs (F : List (String × HVal)) (k : String) (v : HVal) (d : Nat)
    (hd : d ∈ refsOfFields (setField F k v)) :
    d ∈ refsOfFields F ∨ v = HVal.ref d := by
  rw [mem_refsOfFields] at hd
  obtain ⟨k2, hk2⟩ := hd
  unfold setField at hk2
  by_cases hany : (F.any fun p => decide (p.1 = k)) = true
  · rw [if_pos hany] at hk2
    rw [List.mem_map] at hk2
    obtain ⟨p, hp, hpe⟩ := hk2
    by_cases hpk : p.1 = k
    · rw [if_pos hpk] at hpe
      exact Or.inr (congrArg Prod.snd hpe)
    · rw [if_neg hpk] at hpe
      subst hpe
      exact Or.inl ((mem_refsOfFields F d).mpr ⟨k2, hp⟩)
  · rw [if_neg hany] at hk2
    rw [List.mem_append] at hk2
    rcases hk2 with h2 | h2
    · exact Or.inl ((mem_refsOfFields F d).mpr ⟨k2, h2⟩)
    · simp only [List.mem_singleton, Prod.mk.injEq] at h2
      exact Or.inr h2.2.symm

theorem writeField_spec (σ : Store) (a : Nat) (k : String) (v : HVal)
    (fields : List (String × HVal)) (h : σ[a]? = some (HObj.obj fields)) :
    writeField σ a k v = some (σ.set a (HObj.obj (setField fields k v))) ∧
    (∀ i, i ≠ a → (σ.set a (HObj.obj (setField fields k v)))[i]? = σ[i]?) ∧
    (σ.set a (HObj.obj (setField fields k v)))[a]? =
      some (HObj.obj (setField fields k v)) ∧
    ∀ n, n ≤ a → FreshClosed σ n → (∀ b, v = HVal.ref b → n ≤ b) →
      FreshClosed (σ.set a (HObj.obj (setField fields k v))) n := by
  have ha := lookup_bound σ a _ h
  refine ⟨?_, ?_, ?_, ?_⟩
  · unfold writeField
    rw [h]
  · intro i hia
    exact List.getElem?_set_ne (Ne.symm hia)
  · rw [List.getElem?_set_self ha]
  · intro n hn hF hv
    refine freshClosed_set σ a _ n hF ?_
    intro d hd
    rw [refsOf] at hd
    rcases setField_refs fields k v d hd with h1 | h1
    · exact hF a (HObj.obj fields) hn h d h1
    · exact hv d h1

theorem readTagAt_stable (σ σ2 : Store) (hpre : ∀ i, i < σ.length → σ2[i]? = σ[i]?)
    (v : HVal) (t : Tag) (h : readTagAt σ v = some t) : readTagAt σ2 v = some t := by
  cases v with
  | prim p => exact absurd h (by simp [readTagAt])
  | ref a =>
    simp only [readTagAt] at h ⊢
    split at h
    case _ b heq =>
      have hs1 := lookup_stable σ σ2 a _ hpre heq
      split at h
      case _ kk vv heq2 =>
        have hs2 := lookup_stable σ σ2 b _ hpre heq2
        simp only [hs1, hs2]
        exact h
      case _ => exact absurd h (by simp)
    case _ => exact absurd h (by simp)

theorem readTags_stable (σ σ2 : Store) (hpre : ∀ i, i < σ.length → σ2[i]? = σ[i]?) :
    ∀ (vs : List HVal) (ts : List Tag), readTags σ vs = some ts → readTags σ2 vs = some ts := by
  intro vs
  induction vs with
  | nil => exact fun ts h => h
  | cons v rest ih =>
    intro ts h
    unfold readTags at h ⊢
    cases h1 : readTagAt σ v with
    | none => rw [h1] at h; exact absurd h (by simp)
    | some t =>
      rw [h1] at h
      cases h2 : readTags σ rest with
      | none => rw [h2] at h; exact absurd h (by simp)
      | some ts2 =>
        rw [h2] at h
        rw [readTagAt_stable σ σ2 hpre v t h1, ih ts2 h2]
        exact h

theorem readInnerAt_stable (σ σ2 : Store) (hpre : ∀ i, i < σ.length → σ2[i]? = σ[i]?)
    (v : HVal) (I : InnerElement) (h : readInnerAt σ v = some I) :
    readInnerAt σ2 v = some I := by
  cases v with
  | prim p => exact absurd h (by simp [readInnerAt])
  | ref a =>
    simp only [readInnerAt] at h ⊢
    split at h
    case _ b heq =>
      have hs1 := lookup_stable σ σ2 a _ hpre heq
      split at h
      case _ aFields heq2 =>
        have hs2 := lookup_stable σ σ2 b _ hpre heq2
        simp only [hs1, hs2]
        exact h
      case _ => exact absurd h (by simp)
    case _ b c heq =>
      have hs1 := lookup_stable σ σ2 a _ hpre heq
      split at h
      case _ aFields vs heq2 heq3 =>
        have hs2 := lookup_stable σ σ2 b _ hpre heq2
        have hs3 := lookup_stable σ σ2 c _ hpre heq3
        cases h5 : readTags σ vs with
        | none => rw [h5] at h; exact absurd h (by simp)
        | some tags =>
          rw [h5] at h
          have hs4 := readTags_stable σ σ2 hpre vs tags h5
          simp only [hs1, hs2, hs3, hs4]
          exact h
      case _ => exact absurd h (by simp)
    case _ => exact absurd h (by simp)

theorem readInners_stable (σ σ2 : Store) (hpre : ∀ i, i < σ.length → σ2[i]? = σ[i]?) :
    ∀ (vs : List HVal) (is2 : List InnerElement),
      readInners σ vs = some is2 → readInners σ2 vs = some is2 := by
  intro vs
  induction vs with
  | nil => exact fun is2 h => h
  | cons v rest ih =>
    intro is2 h
    unfold readInners at h ⊢
    cases h1 : readInnerAt σ v with
    | none => rw [h1] at h; exact absurd h (by simp)
    | some i =>
      rw [h1] at h
      cases h2 : readInners σ rest with
      | none => rw [h2] at h; exact absurd h (by simp)
      | some r2 =>
        rw [h2] at h
        rw [readInnerAt_stable σ σ2 hpre v i h1, ih r2 h2]
        exact h

theorem readElement_stable (σ σ2 : Store) (hpre : ∀ i, i < σ.length → σ2[i]? = σ[i]?)
    (a : Nat) (E : Element) (h : readElement σ a = some E) :
    readElement σ2 a = some E := by
  unfold readElement at h ⊢
  split at h
  case _ aOsm tyStr heq =>
    have hs1 := lookup_stable σ σ2 a _ hpre heq
    split at h
    case _ hty => exact absurd h (by simp)
    case _ ty hty =>
      split at h
      case _ aD tyKey aArr heq2 =>
        have hs2 := lookup_stable σ σ2 aOsm _ hpre heq2
        split at h
        case isTrue hkey =>
          split at h
          case _ dFields vs heq3 heq4 =>
            have hs3 := lookup_stable σ σ2 aD _ hpre heq3
            have hs4 := lookup_stable σ σ2 aArr _ hpre heq4
            split at h
            case _ dollar inners h5 h6 =>
              have hs5 := readInners_stable σ σ2 hpre vs inners h6
              simp only [hs1, hty, hs2, hkey, if_true, eq_self_iff_true, hs3, hs4, h5, hs5]
              exact h
            case _ => exact absurd h (by simp)
          case _ => exact absurd h (by simp)
        case isFalse hkey => exact absurd h (by simp)
      case _ => exact absurd h (by simp)
  case _ => exact absurd h (by simp)

theorem readElement_lt (σ : Store) (a : Nat) (E : Element)
    (h : readElement σ a = some E) : a < σ.length := by
  unfold readElement at h
  split at h
  case _ aOsm tyStr heq => exact lookup_bound σ a _ heq
  case _ => exact absurd h (by simp)

/-- The frame property of a heap mutator run on an element value E stored at
address a: the mutator succeeds, leaves every pre-existing cell untouched (so
E still reads back identically at a), and returns a root all of whose
reachable cells are fresh, disjoint from everything reachable from a. -/
def MutFrame (σ : Store) (a : Nat) (E : Element) (res : Option (Store × Nat)) : Prop :=
  ∃ σ2 r, res = some (σ2, r) ∧
    (∀ i, i < σ.length → σ2[i]? = σ[i]?) ∧
    readElement σ2 a = some E ∧
    σ.length ≤ r ∧
    (∀ b, Reaches σ2 r b → σ.length ≤ b) ∧
    (∀ b, Reaches σ2 a b → b < σ.length) ∧
    (∀ b, Reaches σ2 r b → ¬ Reaches σ2 a b)

theorem mutFrame_end (σ σfin : Store) (a r : Nat) (E : Element)
    (hwf : WFStore σ) (hread : readElement σ a = some E)
    (hpre : ∀ i, i < σ.length → σfin[i]? = σ[i]?)
    (hfresh : FreshClosed σfin σ.length)
    (hr : σ.length ≤ r) (res : Option (Store × Nat))
    (hres : res = some (σfin, r)) : MutFrame σ a E res := by
  have ha := readElement_lt σ a E hread
  have hlow : ∀ b, Reaches σfin a b → b < σ.length :=
    fun b hb => reaches_lt σ σfin hwf hpre a b ha hb
  have hhigh : ∀ b, Reaches σfin r b → σ.length ≤ b :=
    fun b hb => reaches_ge σfin σ.length hfresh r b hr hb
  exact ⟨σfin, r, hres, hpre, readElement_stable σ σfin hpre a E hread, hr, hhigh, hlow,
    fun b hb hb2 => absurd (hlow b hb2) (Nat.not_lt.mpr (hhigh b hb))⟩

theorem tagWrite_frame (σ σ2 : Store) (a r ia : Nat) (E : Element)
    (fields : List (String × HVal)) (newArr : List HVal) (res : Option (Store × Nat))
    (hwf : WFStore σ) (hread : readElement σ a = some E)
    (hpre2 : ∀ i, i < σ.length → σ2[i]? = σ[i]?)
    (hFC2 : FreshClosed σ2 σ.length)
    (hlen2 : σ.length ≤ σ2.length)
    (hr : σ.length ≤ r) (hiage : σ.length ≤ ia)
    (hfobj : σ2[ia]? = some (HObj.obj fields))
    (hfreshArr : ∀ d ∈ refsOfVals newArr, σ.length ≤ d)
    (hres : res = (match writeField (σ2 ++ [HObj.arr newArr]) ia "tag"
        (HVal.ref σ2.length) with
      | some σ4 => some (σ4, r)
      | none => none)) :
    MutFrame σ a E res := by
  have hfobj3 : (σ2 ++ [HObj.arr newArr])[ia]? = some (HObj.obj fields) :=
    getElem?_append_of_some _ _ _ _ hfobj
  obtain ⟨hw, hwpre, hwa, hwfc⟩ :=
    writeField_spec _ ia "tag" (HVal.ref σ2.length) fields hfobj3
  rw [hw] at hres
  refine mutFrame_end σ _ a r E hwf hread ?_ ?_ hr res hres
  · intro i hi
    rw [hwpre i (by omega)]
    rw [List.getElem?_append_left (by omega : i < σ2.length)]
    exact hpre2 i hi
  · refine hwfc σ.length hiage ?_ ?_
    · refine freshClosed_append _ _ _ hFC2 ?_
      intro o ho d hd
      simp only [List.mem_singleton] at ho
      subst ho
      exact hfreshArr d hd
    · intro b hb
      cases hb
      omega

theorem primWrite_frame (σ σ1 : Store) (a r aA : Nat) (E : Element)
    (fields : List (String × HVal)) (k : String) (p : JSVal) (res : Option (Store × Nat))
    (hwf : WFStore σ) (hread : readElement σ a = some E)
    (hpre1 : ∀ i, i < σ.length → σ1[i]? = σ[i]?)
    (hFC1 : FreshClosed σ1 σ.length)
    (hr : σ.length ≤ r) (hage : σ.length ≤ aA)
    (hobj : σ1[aA]? = some (HObj.obj fields))
    (hres : res = (match writeField σ1 aA k (HVal.prim p) with
      | some σ4 => some (σ4, r)
      | none => none)) :
    MutFrame σ a E res := by
  obtain ⟨hw, hwpre, hwa, hwfc⟩ := writeField_spec σ1 aA k (HVal.prim p) fields hobj
  rw [hw] at hres
  refine mutFrame_end σ _ a r E hwf hread ?_ ?_ hr res hres
  · intro i hi
    rw [hwpre i (by omega)]
    exact hpre1 i hi
  · exact hwfc σ.length hage hFC1 (fun b hb => by cases hb)

theorem primWrite2_frame (σ σ1 : Store) (a r aA : Nat) (E : Element)
    (fields : List (String × HVal)) (k1 k2 : String) (p1 p2 : JSVal)
    (res : Option (Store × Nat))
    (hwf : WFStore σ) (hread : readElement σ a = some E)
    (hpre1 : ∀ i, i < σ.length → σ1[i]? = σ[i]?)
    (hFC1 : FreshClosed σ1 σ.length)
    (hr : σ.length ≤ r) (hage : σ.length ≤ aA)
    (hobj : σ1[aA]? = some (HObj.obj fields))
    (hres : res = (match writeField σ1 aA k1 (HVal.prim p1) with
      | some σ2 =>
        match writeField σ2 aA k2 (HVal.prim p2) with
        | some σ3 => some (σ3, r)
        | none => none
      | none => none)) :
    MutFrame σ a E res := by
  obtain ⟨hw1, hw1pre, hw1a, hw1fc⟩ := writeField_spec σ1 aA k1 (HVal.prim p1) fields hobj
  simp only [hw1] at hres
  obtain ⟨hw2, hw2pre, hw2a, hw2fc⟩ := writeField_spec _ aA k2 (HVal.prim p2) _ hw1a
  simp only [hw2] at hres
  refine mutFrame_end σ _ a r E hwf hread ?_ ?_ hr res hres
  · intro i hi
    rw [hw2pre i (by omega), hw1pre i (by omega)]
    exact hpre1 i hi
  · exact hw2fc σ.length hage
      (hw1fc σ.length hage hFC1 (fun b hb => by cases hb))
      (fun b hb => by cases hb)

theorem heapSetVersion_frame (σ : Store) (a : Nat) (E : Element) (I : InnerElement)
    (rest : List InnerElement) (ver : JSVal)
    (hwf : WFStore σ) (hread : readElement σ a = some E) (helems : E.elems = I :: rest) :
    MutFrame σ a E (heapSetVersion σ E ver) := by
  rcases hC : allocElement σ E with ⟨σ1, r⟩
  obtain ⟨Δ, ia, aA, fields, hσ1, hFB, hr1, hr2, hia, hiage, hfobj, haAge, haAobj, hbranch⟩ :=
    allocElement_spec σ σ1 E r I rest helems hC
  have hpre1 : ∀ i, i < σ.length → σ1[i]? = σ[i]? := by
    intro i hi
    rw [hσ1]
    exact prefix_append σ Δ i hi
  have hFC1 : FreshClosed σ1 σ.length := by
    rw [hσ1]
    exact freshClosed_append σ Δ σ.length (freshClosed_of_le σ _ (le_refl _)) hFB
  have hdollar : getField σ1 ia "$" = some (HVal.ref aA) := by
    rcases hbranch with ⟨_, hf⟩ | ⟨tags, aT, vs, _, hf, _, _, _⟩ <;>
      simp [getField, hfobj, hf, List.find?_cons]
  have hrun : heapSetVersion σ E ver =
      (match writeField σ1 aA "version"
          (HVal.prim (JSVal.str (intDisplay (parseIntJS ver.toString)))) with
        | some σ2 => some (σ2, r)
        | none => none) := by
    simp only [heapSetVersion]
    rw [hC]
    dsimp only
    simp only [hia, hdollar]
  exact primWrite_frame σ σ1 a r aA E (attrsFields I.attrs) "version"
    (JSVal.str (intDisplay (parseIntJS ver.toString))) _ hwf hread hpre1 hFC1
    hr1 haAge haAobj hrun

theorem heapSetTimestampToNow_frame (σ : Store) (a : Nat) (E : Element) (I : InnerElement)
    (rest : List InnerElement) (now : String)
    (hwf : WFStore σ) (hread : readElement σ a = some E) (helems : E.elems = I :: rest) :
    MutFrame σ a E (heapSetTimestampToNow σ E now) := by
  rcases hC : allocElement σ E with ⟨σ1, r⟩
  obtain ⟨Δ, ia, aA, fields, hσ1, hFB, hr1, hr2, hia, hiage, hfobj, haAge, haAobj, hbranch⟩ :=
    allocElement_spec σ σ1 E r I rest helems hC
  have hpre1 : ∀ i, i < σ.length → σ1[i]? = σ[i]? := by
    intro i hi
    rw [hσ1]
    exact prefix_append σ Δ i hi
  have hFC1 : FreshClosed σ1 σ.length := by
    rw [hσ1]
    exact freshClosed_append σ Δ σ.length (freshClosed_of_le σ _ (le_refl _)) hFB
  have hdollar : getField σ1 ia "$" = some (HVal.ref aA) := by
    rcases hbranch with ⟨_, hf⟩ | ⟨tags, aT, vs, _, hf, _, _, _⟩ <;>
      simp [getField, hfobj, hf, List.find?_cons]
  have hrun : heapSetTimestampToNow σ E now =
      (match writeField σ1 aA "timestamp" (HVal.prim (JSVal.str now)) with
        | some σ2 => some (σ2, r)
        | none => none) := by
    simp only [heapSetTimestampToNow]
    rw [hC]
    dsimp only
    simp only [hia, hdollar]
  exact primWrite_frame σ σ1 a r aA E (attrsFields I.attrs) "timestamp"
    (JSVal.str now) _ hwf hread hpre1 hFC1 hr1 haAge haAobj hrun

theorem heapSetCoordinates_frame (σ : Store) (a : Nat) (E : Element) (I : InnerElement)
    (rest : List InnerElement) (lat lon : JSVal)
    (hwf : WFStore σ) (hread : readElement σ a = some E) (helems : E.elems = I :: rest) :
    MutFrame σ a E (heapSetCoordinates σ E lat lon) := by
  rcases hC : allocElement σ E with ⟨σ1, r⟩
  obtain ⟨Δ, ia, aA, fields, hσ1, hFB, hr1, hr2, hia, hiage, hfobj, haAge, haAobj, hbranch⟩ :=
    allocElement_spec σ σ1 E r I rest helems hC
  have hpre1 : ∀ i, i < σ.length → σ1[i]? = σ[i]? := by
    intro i hi
    rw [hσ1]
    exact prefix_append σ Δ i hi
  have hFC1 : FreshClosed σ1 σ.length := by
    rw [hσ1]
    exact freshClosed_append σ Δ σ.length (freshClosed_of_le σ _ (le_refl _)) hFB
  have hdollar : getField σ1 ia "$" = some (HVal.ref aA) := by
    rcases hbranch with ⟨_, hf⟩ | ⟨tags, aT, vs, _, hf, _, _, _⟩ <;>
      simp [getField, hfobj, hf, List.find?_cons]
  have hrun : heapSetCoordinates σ E lat lon =
      (match writeField σ1 aA "lat" (HVal.prim (JSVal.str lat.toString)) with
        | some σ2 =>
          match writeField σ2 aA "lon" (HVal.prim (JSVal.str lon.toString)) with
          | some σ3 => some (σ3, r)
          | none => none
        | none => none) := by
    simp only [heapSetCoordinates]
    rw [hC]
    dsimp only
    simp only [hia, hdollar]
  exact primWrite2_frame σ σ1 a r aA E (attrsFields I.attrs) "lat" "lon"
    (JSVal.str lat.toString) (JSVal.str lon.toString) _ hwf hread hpre1 hFC1
    hr1 haAge haAobj hrun

theorem heapRemoveProperty_frame (σ : Store) (a : Nat) (E : Element) (I : InnerElement)
    (rest : List InnerElement) (tags : List Tag) (pn : JSVal)
    (hwf : WFStore σ) (hread : readElement σ a = some E) (helems : E.elems = I :: rest)
    (htag : I.tag = some tags) :
    MutFrame σ a E (heapRemoveProperty σ E pn) := by
  rcases hC : allocElement σ E with ⟨σ1, r⟩
  obtain ⟨Δ, ia, aA, fields, hσ1, hFB, hr1, hr2, hia, hiage, hfobj, haAge, haAobj, hbranch⟩ :=
    allocElement_spec σ σ1 E r I rest helems hC
  have hpre1 : ∀ i, i < σ.length → σ1[i]? = σ[i]? := by
    intro i hi
    rw [hσ1]
    exact prefix_append σ Δ i hi
  have hFC1 : FreshClosed σ1 σ.length := by
    rw [hσ1]
    exact freshClosed_append σ Δ σ.length (freshClosed_of_le σ _ (le_refl _)) hFB
  have hσ1len : σ.length ≤ σ1.length := by
    rw [hσ1]
    simp
  rcases hbranch with ⟨htag0, _⟩ | ⟨tags2, aT, vs, _, hf, _, haTobj, hvs⟩
  · rw [htag0] at htag
    exact absurd htag (by simp)
  · have hTL : heapTagList σ1 ia = some vs := by
      simp [heapTagList, getField, hfobj, hf, List.find?_cons, haTobj]
    have hrun : heapRemoveProperty σ E pn =
        (match writeField (σ1 ++ [HObj.arr (vs.filter fun tv =>
            match tv with
            | HVal.ref b =>
              match heapTagKey σ1 b with
              | some kk => decide (kk ≠ pn)
              | none => true
            | _ => true)]) ia "tag" (HVal.ref σ1.length) with
          | some σ4 => some (σ4, r)
          | none => none) := by
      simp only [heapRemoveProperty]
      rw [hC]
      dsimp only
      simp only [hia, hTL, alloc]
    refine tagWrite_frame σ σ1 a r ia E fields _ _ hwf hread hpre1 hFC1 hσ1len
      hr1 hiage hfobj ?_ hrun
    intro d hd
    rw [mem_refsOfVals] at hd
    have hdvs : HVal.ref d ∈ vs := (List.mem_filter.mp hd).1
    obtain ⟨b, hb1, hb2⟩ := hvs _ hdvs
    cases hb1
    exact hb2

theorem heapSetProperty_frame (σ : Store) (a : Nat) (E : Element) (I : InnerElement)
    (rest : List InnerElement) (pn pv : JSVal)
    (hwf : WFStore σ) (hread : readElement σ a = some E) (helems : E.elems = I :: rest) :
    MutFrame σ a E (heapSetProperty σ E pn pv) := by
  rcases hC : allocElement σ E with ⟨σ1, r⟩
  obtain ⟨Δ, ia, aA, fields, hσ1, hFB, hr1, hr2, hia, hiage, hfobj, haAge, haAobj, hbranch⟩ :=
    allocElement_spec σ σ1 E r I rest helems hC
  have hpre1 : ∀ i, i < σ.length → σ1[i]? = σ[i]? := by
    intro i hi
    rw [hσ1]
    exact prefix_append σ Δ i hi
  have hFC1 : FreshClosed σ1 σ.length := by
    rw [hσ1]
    exact freshClosed_append σ Δ σ.length (freshClosed_of_le σ _ (le_refl _)) hFB
  have hσ1len : σ.length ≤ σ1.length := by
    rw [hσ1]
    simp
  have hpre2 : ∀ i, i < σ.length →
      (σ1 ++ [HObj.obj [("k", HVal.prim (JSVal.str pn.toString)),
        ("v", HVal.prim (JSVal.str pv.toString))],
        HObj.obj [("$", HVal.ref σ1.length)]])[i]? = σ[i]? := by
    intro i hi
    rw [List.getElem?_append_left (by omega : i < σ1.length)]
    exact hpre1 i hi
  have hFC2 : FreshClosed (σ1 ++ [HObj.obj [("k", HVal.prim (JSVal.str pn.toString)),
      ("v", HVal.prim (JSVal.str pv.toString))],
      HObj.obj [("$", HVal.ref σ1.length)]]) σ.length := by
    refine freshClosed_append _ _ _ hFC1 ?_
    intro o ho d hd
    simp only [List.mem_cons, List.not_mem_nil, or_false] at ho
    rcases ho with rfl | rfl
    · simp [refsOf, refsOfFields] at hd
    · simp only [refsOf, refsOfFields, List.mem_singleton] at hd
      omega
  have hfobj2 : (σ1 ++ [HObj.obj [("k", HVal.prim (JSVal.str pn.toString)),
      ("v", HVal.prim (JSVal.str pv.toString))],
      HObj.obj [("$", HVal.ref σ1.length)]])[ia]? = some (HObj.obj fields) :=
    getElem?_append_of_some _ _ _ _ hfobj
  have hrun : heapSetProperty σ E pn pv =
      (match writeField ((σ1 ++ [HObj.obj [("k", HVal.prim (JSVal.str pn.toString)),
          ("v", HVal.prim (JSVal.str pv.toString))],
          HObj.obj [("$", HVal.ref σ1.length)]]) ++
          [HObj.arr ((((heapTagList σ1 ia).getD []).filter fun tv =>
            match tv with
            | HVal.ref b =>
              match heapTagKey σ1 b with
              | some kk => decide (kk ≠ JSVal.str pn.toString)
              | none => true
            | _ => true) ++ [HVal.ref (σ1.length + 1)])]) ia "tag"
          (HVal.ref (σ1 ++ [HObj.obj [("k", HVal.prim (JSVal.str pn.toString)),
            ("v", HVal.prim (JSVal.str pv.toString))],
            HObj.obj [("$", HVal.ref σ1.length)]]).length) with
        | some σ4 => some (σ4, r)
        | none => none) := by
    simp only [heapSetProperty]
    rw [hC]
    dsimp only
    simp only [hia, allocTag_eq, alloc]
  refine tagWrite_frame σ _ a r ia E fields _ _ hwf hread hpre2 hFC2 (by simp; omega)
    hr1 hiage hfobj2 ?_ hrun
  intro d hd
  rw [mem_refsOfVals] at hd
  rw [List.mem_append] at hd
  rcases hd with hd | hd
  · have hdex : HVal.ref d ∈ (heapTagList σ1 ia).getD [] := (List.mem_filter.mp hd).1
    rcases hbranch with ⟨_, hf⟩ | ⟨tags, aT, vs, _, hf, _, haTobj, hvs⟩
    · have hTL : heapTagList σ1 ia = none := by
        simp [heapTagList, getField, hfobj, hf, List.find?_cons]
      rw [hTL] at hdex
      exact absurd hdex (by simp)
    · have hTL : heapTagList σ1 ia = some vs := by
        simp [heapTagList, getField, hfobj, hf, List.find?_cons, haTobj]
      rw [hTL] at hdex
      obtain ⟨b, hb1, hb2⟩ := hvs _ (by simpa using hdex)
      cases hb1
      exact hb2
  · simp only [List.mem_singleton] at hd
    cases hd
    omega

theorem heapSetProperties_frame (σ : Store) (a : Nat) (E : Element) (I : InnerElement)
    (rest : List InnerElement) (properties : List (String × JSVal))
    (hwf : WFStore σ) (hread : readElement σ a = some E) (helems : E.elems = I :: rest) :
    MutFrame σ a E (heapSetProperties σ E properties) := by
  rcases hC : allocElement σ E with ⟨σ1, r⟩
  obtain ⟨Δ, ia, aA, fields, hσ1, hFB, hr1, hr2, hia, hiage, hfobj, haAge, haAobj, hbranch⟩ :=
    allocElement_spec σ σ1 E r I rest helems hC
  have hpre1 : ∀ i, i < σ.length → σ1[i]? = σ[i]? := by
    intro i hi
    rw [hσ1]
    exact prefix_append σ Δ i hi
  have hFC1 : FreshClosed σ1 σ.length := by
    rw [hσ1]
    exact freshClosed_append σ Δ σ.length (freshClosed_of_le σ _ (le_refl _)) hFB
  have hσ1len : σ.length ≤ σ1.length := by
    rw [hσ1]
    simp
  rcases hT : allocTags σ1 (properties.map fun p =>
    (⟨⟨JSVal.str p.1, JSVal.str p.2.toString⟩⟩ : Tag)) with ⟨σT, newAddrs⟩
  obtain ⟨ΔT, hΔT, hFBT, hBndT⟩ := allocTags_spec _ σ1 σT newAddrs hT
  have hσTlen : σ1.length ≤ σT.length := by
    rw [hΔT]
    simp
  have hpre2 : ∀ i, i < σ.length → σT[i]? = σ[i]? := by
    intro i hi
    rw [hΔT]
    rw [List.getElem?_append_left (by omega : i < σ1.length)]
    exact hpre1 i hi
  have hFC2 : FreshClosed σT σ.length := by
    rw [hΔT]
    exact freshClosed_append _ _ _ hFC1 (freshBlock_mono _ _ _ (by omega) hFBT)
  have hfobj2 : σT[ia]? = some (HObj.obj fields) := by
    rw [hΔT]
    exact getElem?_append_of_some _ _ _ _ hfobj
  have hrun : heapSetProperties σ E properties =
      (match writeField (σT ++
          [HObj.arr ((((heapTagList σ1 ia).getD []).filter fun tv =>
            match tv with
            | HVal.ref b =>
              match heapTagKey σ1 b with
              | some kk => decide (kk ∉ ((properties.map Prod.fst).map JSVal.str))
              | none => true
            | _ => true) ++ newAddrs.map HVal.ref)]) ia "tag"
          (HVal.ref σT.length) with
        | some σ4 => some (σ4, r)
        | none => none) := by
    simp only [heapSetProperties]
    rw [hC]
    dsimp only
    simp only [hia, hT, alloc]
  refine tagWrite_frame σ σT a r ia E fields _ _ hwf hread hpre2 hFC2 (by omega)
    hr1 hiage hfobj2 ?_ hrun
  intro d hd
  rw [mem_refsOfVals] at hd
  rw [List.mem_append] at hd
  rcases hd with hd | hd
  · have hdex : HVal.ref d ∈ (heapTagList σ1 ia).getD [] := (List.mem_filter.mp hd).1
    rcases hbranch with ⟨_, hf⟩ | ⟨tags, aT, vs, _, hf, _, haTobj, hvs⟩
    · have hTL : heapTagList σ1 ia = none := by
        simp [heapTagList, getField, hfobj, hf, List.find?_cons]
      rw [hTL] at hdex
      exact absurd hdex (by simp)
    · have hTL : heapTagList σ1 ia = some vs := by
        simp [heapTagList, getField, hfobj, hf, List.find?_cons, haTobj]
      rw [hTL] at hdex
      obtain ⟨b, hb1, hb2⟩ := hvs _ (by simpa using hdex)
      cases hb1
      exact hb2
  · rw [List.mem_map] at hd
    obtain ⟨x, hx, hxe⟩ := hd
    obtain ⟨hx1, _⟩ := hBndT x hx
    cases hxe
    omega

/-- C2: for every element E with a first inner element and unique tag keys and
all string property names/values (k, v), `setProperty E k v` succeeds and
returns an element whose tag set has exactly one entry with key k, that entry
carrying value v, while the tags with other keys, the inner attributes, the
osm attributes and the type are unchanged. -/
theorem setProperty_upsert (E : Element) (inner : InnerElement) (rest : List InnerElement)
    (k v : String) (helems : E.elems = inner :: rest)
    (huniq : (tagKeys (tagsOrEmpty inner)).Nodup) :
    ∃ E2 inner2, setProperty E (JSVal.str k) (JSVal.str v) = some E2 ∧
      E2.elems = inner2 :: rest ∧
      (tagsOrEmpty inner2).countP (fun t => decide (t.attrs.k = JSVal.str k)) = 1 ∧
      (∀ t ∈ tagsOrEmpty inner2, t.attrs.k = JSVal.str k → t.attrs.v = JSVal.str v) ∧
      (tagsOrEmpty inner2).filter (fun t => decide (t.attrs.k ≠ JSVal.str k)) =
        (tagsOrEmpty inner).filter (fun t => decide (t.attrs.k ≠ JSVal.str k)) ∧
      E2.osmDollar = E.osmDollar ∧ E2.etype = E.etype ∧ inner2.attrs = inner.attrs := by
  obtain ⟨iattrs, itag⟩ := inner
  have h1 : setProperty E (JSVal.str k) (JSVal.str v) = some
      ⟨E.osmDollar, E.etype, ⟨iattrs, some (((itag.getD []).filter
        (fun t => decide (t.attrs.k ≠ JSVal.str k))) ++
          [⟨⟨JSVal.str k, JSVal.str v⟩⟩])⟩ :: rest⟩ := by
    cases itag <;> simp [setProperty, simpleObjectDeepClone, helems, JSVal.toString]
  refine ⟨_, _, h1, rfl, ?_, ?_, ?_, rfl, rfl, rfl⟩
  · simp only [tagsOrEmpty, Option.getD_some, List.countP_append]
    have h0 : ((itag.getD []).filter fun t => decide (t.attrs.k ≠ JSVal.str k)).countP
        (fun t => decide (t.attrs.k = JSVal.str k)) = 0 := by
      refine List.countP_eq_zero.mpr ?_
      intro t ht
      have h3 := (List.mem_filter.mp ht).2
      simp only [decide_eq_true_eq] at h3 ⊢
      exact h3
    rw [h0]
    simp
  · intro t ht hk
    simp only [tagsOrEmpty, Option.getD_some, List.mem_append] at ht
    rcases ht with ht | ht
    · have h3 := (List.mem_filter.mp ht).2
      simp only [decide_eq_true_eq] at h3
      exact absurd hk h3
    · simp only [List.mem_singleton] at ht
      subst ht
      rfl
  · simp only [tagsOrEmpty, Option.getD_some, List.filter_append, List.filter_filter]
    simp

/-- C3: removing k right after setting it yields exactly the original tag set
minus k (and nothing with key k survives); a second removal with the same key
is a no-op, both on this result and in general. -/
theorem removeProperty_after_setProperty (E : Element) (inner : InnerElement)
    (rest : List InnerElement) (k v : String) (helems : E.elems = inner :: rest) :
    ∃ E1 E2 inner2, setProperty E (JSVal.str k) (JSVal.str v) = some E1 ∧
      removeProperty E1 (JSVal.str k) = some E2 ∧
      E2.elems = inner2 :: rest ∧
      inner2.tag = some ((tagsOrEmpty inner).filter fun t => decide (t.attrs.k ≠ JSVal.str k)) ∧
      (∀ t ∈ tagsOrEmpty inner2, t.attrs.k ≠ JSVal.str k) ∧
      inner2.attrs = inner.attrs ∧ E2.osmDollar = E.osmDollar ∧ E2.etype = E.etype ∧
      removeProperty E2 (JSVal.str k) = some E2 ∧
      (∀ F G : Element, removeProperty F (JSVal.str k) = some G →
        removeProperty G (JSVal.str k) = some G) := by
  obtain ⟨iattrs, itag⟩ := inner
  have h1 : setProperty E (JSVal.str k) (JSVal.str v) = some
      ⟨E.osmDollar, E.etype, ⟨iattrs, some (((itag.getD []).filter
        (fun t => decide (t.attrs.k ≠ JSVal.str k))) ++
          [⟨⟨JSVal.str k, JSVal.str v⟩⟩])⟩ :: rest⟩ := by
    cases itag <;> simp [setProperty, simpleObjectDeepClone, helems, JSVal.toString]
  have h2 : removeProperty
      (⟨E.osmDollar, E.etype, ⟨iattrs, some (((itag.getD []).filter
        (fun t => decide (t.attrs.k ≠ JSVal.str k))) ++
          [⟨⟨JSVal.str k, JSVal.str v⟩⟩])⟩ :: rest⟩ : Element)
      (JSVal.str k) = some
      ⟨E.osmDollar, E.etype, ⟨iattrs, some ((itag.getD []).filter
        (fun t => decide (t.attrs.k ≠ JSVal.str k)))⟩ :: rest⟩ := by
    simp [removeProperty, simpleObjectDeepClone, List.filter_append, List.filter_filter]
  refine ⟨_, _, _, h1, h2, rfl, by simp [tagsOrEmpty], ?_, rfl, rfl, rfl,
    removeProperty_idem (JSVal.str k) _ _ h2, fun F G h => removeProperty_idem _ F G h⟩
  intro t ht
  simp only [tagsOrEmpty, Option.getD_some] at ht
  have h3 := (List.mem_filter.mp ht).2
  simpa using h3

/-- C5: `setCoordinates` and `setVersion` return elements whose tag list is
identical to the input's. -/
theorem setCoordinates_setVersion_tags_unchanged (E : Element) (inner : InnerElement)
    (rest : List InnerElement) (lat lon ver : JSVal) (helems : E.elems = inner :: rest) :
    (∃ E1 inner1, setCoordinates E lat lon = some E1 ∧ E1.elems = inner1 :: rest ∧
      inner1.tag = inner.tag) ∧
    (∃ E2 inner2, setVersion E ver = some E2 ∧ E2.elems = inner2 :: rest ∧
      inner2.tag = inner.tag) := by
  obtain ⟨iattrs, itag⟩ := inner
  have h1 : setCoordinates E lat lon = some
      ⟨E.osmDollar, E.etype, ⟨⟨some (JSVal.str lat.toString), some (JSVal.str lon.toString),
        iattrs.version, iattrs.timestamp⟩, itag⟩ :: rest⟩ := by
    simp [setCoordinates, simpleObjectDeepClone, helems]
  have h2 : setVersion E ver = some
      ⟨E.osmDollar, E.etype, ⟨⟨iattrs.lat, iattrs.lon,
        some (JSVal.str (intDisplay (parseIntJS ver.toString))), iattrs.timestamp⟩,
        itag⟩ :: rest⟩ := by
    simp [setVersion, simpleObjectDeepClone, helems]
  exact ⟨⟨_, _, h1, rfl, rfl⟩, ⟨_, _, h2, rfl, rfl⟩⟩

/-- C6: `createNodeElement 48.8 2.3 {name: "Cafe"}` (48.8 and 2.3 are the
rationals 488/10 and 23/10) yields one node with those coordinates and the
single tag k "name" / v "Cafe"; in general the result is a node element with
the given raw coordinates and one tag per key of the properties object. -/
theorem createNodeElement_shape :
    (createNodeElement (JSVal.num (mkRat 488 10)) (JSVal.num (mkRat 23 10))
        [("name", JSVal.str "Cafe")] =
      { osmDollar := []
        etype := ElementType.node
        elems := [{ attrs := { lat := some (JSVal.num (mkRat 488 10)),
                               lon := some (JSVal.num (mkRat 23 10)),
                               version := none, timestamp := none }
                    tag := some [⟨⟨JSVal.str "name", JSVal.str "Cafe"⟩⟩] }] }) ∧
    ∀ (lat lon : JSVal) (props : List (String × JSVal)),
      (createNodeElement lat lon props).etype = ElementType.node ∧
      (createNodeElement lat lon props).elems =
        [{ attrs := { lat := some lat, lon := some lon, version := none, timestamp := none }
           tag := some (props.map fun p => (⟨⟨JSVal.str p.1, JSVal.str p.2.toString⟩⟩ : Tag)) }] ∧
      ((createNodeElement lat lon props).elems.map fun i => tagKeys (tagsOrEmpty i)) =
        [props.map fun p => JSVal.str p.1] := by
  refine ⟨by decide, fun lat lon props => ⟨rfl, rfl, ?_⟩⟩
  simp [createNodeElement, tagKeys, tagsOrEmpty]

/-- Witness for C2 at a concrete element. -/
theorem setProperty_upsert_witness :
    ∃ E2 inner2, setProperty sampleElement (JSVal.str "name") (JSVal.str "Cafe") = some E2 ∧
      E2.elems = inner2 :: [] ∧
      (tagsOrEmpty inner2).countP (fun t => decide (t.attrs.k = JSVal.str "name")) = 1 ∧
      (∀ t ∈ tagsOrEmpty inner2, t.attrs.k = JSVal.str "name" → t.attrs.v = JSVal.str "Cafe") ∧
      (tagsOrEmpty inner2).filter (fun t => decide (t.attrs.k ≠ JSVal.str "name")) =
        (tagsOrEmpty sampleInner).filter (fun t => decide (t.attrs.k ≠ JSVal.str "name")) ∧
      E2.osmDollar = sampleElement.osmDollar ∧ E2.etype = sampleElement.etype ∧
      inner2.attrs = sampleInner.attrs :=
  setProperty_upsert sampleElement sampleInner [] "name" "Cafe" rfl (by decide)

/-- Witness for C3 at a concrete element. -/
theorem removeProperty_after_setProperty_witness :
    ∃ E1 E2 inner2, setProperty sampleElement (JSVal.str "name") (JSVal.str "Cafe") = some E1 ∧
      removeProperty E1 (JSVal.str "name") = some E2 ∧
      E2.elems = inner2 :: [] ∧
      inner2.tag = some ((tagsOrEmpty sampleInner).filter fun t =>
        decide (t.attrs.k ≠ JSVal.str "name")) ∧
      (∀ t ∈ tagsOrEmpty inner2, t.attrs.k ≠ JSVal.str "name") ∧
      inner2.attrs = sampleInner.attrs ∧ E2.osmDollar = sampleElement.osmDollar ∧
      E2.etype = sampleElement.etype ∧
      removeProperty E2 (JSVal.str "name") = some E2 ∧
      (∀ F G : Element, removeProperty F (JSVal.str "name") = some G →
        removeProperty G (JSVal.str "name") = some G) :=
  removeProperty_after_setProperty sampleElement sampleInner [] "name" "Cafe" rfl

/-- C7 counterexample: `setVersion` applied with the argument "abc" stores the
string NaN as the version, which is not a decimal integer, so the stored
version is not always a numeric integer. -/
theorem setVersion_not_integer_counterexample :
    (setVersion (createNodeElement (JSVal.num 1) (JSVal.num 2) []) (JSVal.str "abc")).map
        (fun E2 => E2.elems.map fun i => i.attrs.version) =
      some [some (JSVal.str "NaN")] ∧
    isIntegerString "NaN" = false := by decide

/-- C7 (amended): `setVersion` stores `parseInt` of the argument's string
form: the decimal string of its leading integer when one parses (a numeric
integer), and the string NaN otherwise; everything else in the inner element
is unchanged. -/
theorem setVersion_parseInt_characterization (E : Element) (inner : InnerElement)
    (rest : List InnerElement) (version : JSVal) (helems : E.elems = inner :: rest) :
    ∃ E2 inner2, setVersion E version = some E2 ∧ E2.elems = inner2 :: rest ∧
      inner2.attrs.version = some (JSVal.str (intDisplay (parseIntJS version.toString))) ∧
      ((∃ i : Int, parseIntJS version.toString = some i ∧
          intDisplay (parseIntJS version.toString) = intStr i) ∨
        (parseIntJS version.toString = none ∧
          intDisplay (parseIntJS version.toString) = "NaN")) ∧
      inner2.tag = inner.tag ∧ inner2.attrs.lat = inner.attrs.lat ∧
      inner2.attrs.lon = inner.attrs.lon ∧
      inner2.attrs.timestamp = inner.attrs.timestamp := by
  obtain ⟨iattrs, itag⟩ := inner
  have h2 : setVersion E version = some
      ⟨E.osmDollar, E.etype, ⟨⟨iattrs.lat, iattrs.lon,
        some (JSVal.str (intDisplay (parseIntJS version.toString))), iattrs.timestamp⟩,
        itag⟩ :: rest⟩ := by
    simp [setVersion, simpleObjectDeepClone, helems]
  refine ⟨_, _, h2, rfl, rfl, ?_, rfl, rfl, rfl, rfl⟩
  cases hp : parseIntJS version.toString with
  | none => exact Or.inr ⟨rfl, by simp [intDisplay]⟩
  | some i => exact Or.inl ⟨i, rfl, by simp [intDisplay]⟩

/-- Witness for the amended C7 at a concrete element and version. -/
theorem setVersion_parseInt_characterization_witness :
    ∃ E2 inner2, setVersion sampleElement (JSVal.num 3) = some E2 ∧
      E2.elems = inner2 :: [] ∧
      inner2.attrs.version =
        some (JSVal.str (intDisplay (parseIntJS (JSVal.num 3).toString))) ∧
      ((∃ i : Int, parseIntJS (JSVal.num 3).toString = some i ∧
          intDisplay (parseIntJS (JSVal.num 3).toString) = intStr i) ∨
        (parseIntJS (JSVal.num 3).toString = none ∧
          intDisplay (parseIntJS (JSVal.num 3).toString) = "NaN")) ∧
      inner2.tag = sampleInner.tag ∧ inner2.attrs.lat = sampleInner.attrs.lat ∧
      inner2.attrs.lon = sampleInner.attrs.lon ∧
      inner2.attrs.timestamp = sampleInner.attrs.timestamp :=
  setVersion_parseInt_characterization sampleElement sampleInner [] (JSVal.num 3) rfl

/-- C9: on an element whose inner object has no tag array, `setProperty` and
`setProperties` succeed, treating the missing array as empty, while
`removeProperty` calls `.filter` on the missing array and fails (the thrown
TypeError is modelled as the `none` result). -/
theorem missing_tag_array_partiality (E : Element) (inner : InnerElement)
    (rest : List InnerElement) (helems : E.elems = inner :: rest)
    (htag : inner.tag = none) (k v : JSVal) (props : List (String × JSVal)) :
    (∃ E1 inner1, setProperty E k v = some E1 ∧ E1.elems = inner1 :: rest ∧
      inner1.tag = some [⟨⟨JSVal.str k.toString, JSVal.str v.toString⟩⟩]) ∧
    (∃ E2 inner2, setProperties E props = some E2 ∧ E2.elems = inner2 :: rest ∧
      inner2.tag = some (props.map fun p =>
        (⟨⟨JSVal.str p.1, JSVal.str p.2.toString⟩⟩ : Tag))) ∧
    removeProperty E k = none := by
  obtain ⟨iattrs, itag⟩ := inner
  cases itag with
  | some tags => simp at htag
  | none =>
    have h1 : setProperty E k v = some
        ⟨E.osmDollar, E.etype, ⟨iattrs,
          some [⟨⟨JSVal.str k.toString, JSVal.str v.toString⟩⟩]⟩ :: rest⟩ := by
      simp [setProperty, simpleObjectDeepClone, helems]
    have h2 : setProperties E props = some
        ⟨E.osmDollar, E.etype, ⟨iattrs,
          some (props.map fun p =>
            (⟨⟨JSVal.str p.1, JSVal.str p.2.toString⟩⟩ : Tag))⟩ :: rest⟩ := by
      simp [setProperties, simpleObjectDeepClone, helems]
    refine ⟨⟨_, _, h1, rfl, rfl⟩, ⟨_, _, h2, rfl, rfl⟩, ?_⟩
    simp [removeProperty, simpleObjectDeepClone, helems]

/-- Witness for C9 at a concrete element without a tag array. -/
theorem missing_tag_array_partiality_witness :
    (∃ E1 inner1, setProperty
        (⟨[], ElementType.node, [⟨sampleInner.attrs, none⟩]⟩ : Element)
        (JSVal.str "name") (JSVal.str "Cafe") = some E1 ∧
      E1.elems = inner1 :: [] ∧
      inner1.tag = some [⟨⟨JSVal.str (JSVal.str "name").toString,
        JSVal.str (JSVal.str "Cafe").toString⟩⟩]) ∧
    (∃ E2 inner2, setProperties
        (⟨[], ElementType.node, [⟨sampleInner.attrs, none⟩]⟩ : Element)
        [("name", JSVal.str "Cafe")] = some E2 ∧
      E2.elems = inner2 :: [] ∧
      inner2.tag = some ([("name", JSVal.str "Cafe")].map fun p =>
        (⟨⟨JSVal.str p.1, JSVal.str p.2.toString⟩⟩ : Tag))) ∧
    removeProperty (⟨[], ElementType.node, [⟨sampleInner.attrs, none⟩]⟩ : Element)
      (JSVal.str "name") = none :=
  missing_tag_array_partiality _ ⟨sampleInner.attrs, none⟩ [] rfl rfl
    (JSVal.str "name") (JSVal.str "Cafe") [("name", JSVal.str "Cafe")]

/-- C10: `setProperty` stringifies the property name before storing, but
`removeProperty` compares stored keys to its argument with strict inequality
and no coercion, so removing with the same non-string name leaves the tag
stored under the string form of the name in place. -/
theorem remove_after_set_nonstring_key (E : Element) (inner : InnerElement)
    (rest : List InnerElement) (helems : E.elems = inner :: rest)
    (n v : JSVal) (hn : n.isStr = false) :
    ∃ E1 E2 inner2, setProperty E n v = some E1 ∧
      removeProperty E1 n = some E2 ∧ E2.elems = inner2 :: rest ∧
      (⟨⟨JSVal.str n.toString, JSVal.str v.toString⟩⟩ : Tag) ∈ tagsOrEmpty inner2 := by
  obtain ⟨iattrs, itag⟩ := inner
  have hne : JSVal.str n.toString ≠ n := by
    cases n with
    | str s => simp [JSVal.isStr] at hn
    | num q => exact fun h => JSVal.noConfusion h
  have h1 : setProperty E n v = some
      ⟨E.osmDollar, E.etype, ⟨iattrs, some (((itag.getD []).filter
        (fun t => decide (t.attrs.k ≠ JSVal.str n.toString))) ++
          [⟨⟨JSVal.str n.toString, JSVal.str v.toString⟩⟩])⟩ :: rest⟩ := by
    cases itag <;> simp [setProperty, simpleObjectDeepClone, helems]
  have h2 : removeProperty
      (⟨E.osmDollar, E.etype, ⟨iattrs, some (((itag.getD []).filter
        (fun t => decide (t.attrs.k ≠ JSVal.str n.toString))) ++
          [⟨⟨JSVal.str n.toString, JSVal.str v.toString⟩⟩])⟩ :: rest⟩ : Element) n = some
      (⟨E.osmDollar, E.etype, ⟨iattrs, some ((((itag.getD []).filter
        (fun t => decide (t.attrs.k ≠ JSVal.str n.toString))) ++
          ([⟨⟨JSVal.str n.toString, JSVal.str v.toString⟩⟩] : List Tag)).filter
            (fun t => decide (t.attrs.k ≠ n)))⟩ :: rest⟩ : Element) := by
    simp [removeProperty, simpleObjectDeepClone]
  refine ⟨_, _, _, h1, h2, rfl, ?_⟩
  simp only [tagsOrEmpty, Option.getD_some, List.mem_filter, List.mem_append,
    List.mem_singleton, decide_eq_true_eq]
  exact ⟨Or.inr trivial, hne⟩

/-- Witness for C10 with the numeric property name 7. -/
theorem remove_after_set_nonstring_key_witness :
    ∃ E1 E2 inner2, setProperty sampleElement (JSVal.num 7) (JSVal.str "x") = some E1 ∧
      removeProperty E1 (JSVal.num 7) = some E2 ∧ E2.elems = inner2 :: [] ∧
      (⟨⟨JSVal.str (JSVal.num 7).toString,
        JSVal.str (JSVal.str "x").toString⟩⟩ : Tag) ∈ tagsOrEmpty inner2 :=
  remove_after_set_nonstring_key sampleElement sampleInner [] rfl
    (JSVal.num 7) (JSVal.str "x") (by decide)

/-- Helper: filtering tags preserves key uniqueness. -/
theorem tagKeys_nodup_filter (l : List Tag) (p : Tag → Bool)
    (h : (tagKeys l).Nodup) : (tagKeys (l.filter p)).Nodup := by
  simp only [tagKeys] at h ⊢
  have hs : (l.filter p).Sublist l := List.filter_sublist l
  exact h.sublist (hs.map fun t => t.attrs.k)

/-- Helper: key uniqueness after the upsert done by `setProperty`. -/
theorem setProperty_keys_nodup (l : List Tag) (s : String) (v2 : JSVal)
    (h : (tagKeys l).Nodup) :
    (tagKeys ((l.filter fun t => decide (t.attrs.k ≠ JSVal.str s)) ++
      [⟨⟨JSVal.str s, v2⟩⟩])).Nodup := by
  simp only [tagKeys, List.map_append, List.map_cons, List.map_nil]
  rw [List.nodup_append]
  refine ⟨tagKeys_nodup_filter l _ h, List.nodup_singleton _, ?_⟩
  intro a ha hb
  simp only [List.mem_singleton] at hb
  subst hb
  simp only [List.mem_map] at ha
  obtain ⟨t, ht, hk⟩ := ha
  have h3 := (List.mem_filter.mp ht).2
  rw [hk] at h3
  simp at h3

/-- Helper: key uniqueness after the bulk upsert done by `setProperties`. -/
theorem setProperties_keys_nodup (l : List Tag) (props : List (String × JSVal))
    (h : (tagKeys l).Nodup) (hprops : (props.map Prod.fst).Nodup) :
    (tagKeys ((l.filter fun t =>
        decide (t.attrs.k ∉ (props.map Prod.fst).map JSVal.str)) ++
      (props.map fun p => (⟨⟨JSVal.str p.1, JSVal.str p.2.toString⟩⟩ : Tag)))).Nodup := by
  simp only [tagKeys, List.map_append]
  rw [List.nodup_append]
  refine ⟨tagKeys_nodup_filter l _ h, ?_, ?_⟩
  · have hinj : Function.Injective JSVal.str := fun a b hab => by
      cases hab
      rfl
    have h4 : ((props.map Prod.fst).map JSVal.str).Nodup := hprops.map hinj
    simpa [List.map_map, Function.comp] using h4
  · intro a ha hb
    obtain ⟨t, ht, hk⟩ := List.mem_map.mp ha
    obtain ⟨t2, ht2, hk2⟩ := List.mem_map.mp hb
    obtain ⟨p, hp, hfmt⟩ := List.mem_map.mp ht2
    have hq := (List.mem_filter.mp ht).2
    simp only [decide_eq_true_eq] at hq
    exact hq (by
      rw [hk, ← hk2, ← hfmt]
      exact List.mem_map.mpr ⟨p.1, List.mem_map.mpr ⟨p, hp, rfl⟩, rfl⟩)

/-- C4: each of the six mutators keeps tag keys unique and leaves every field
it does not target unchanged (the `removeProperty` part assumes a present tag
array, which that function requires to return at all). -/
theorem mutators_preserve_invariants (E : Element) (inner : InnerElement)
    (rest : List InnerElement) (helems : E.elems = inner :: rest)
    (huniq : (tagKeys (tagsOrEmpty inner)).Nodup)
    (k2 v2 lat lon ver : JSVal) (props : List (String × JSVal))
    (hprops : (props.map Prod.fst).Nodup) (now : String) :
    (∃ E1 inner1, setProperty E k2 v2 = some E1 ∧ E1.elems = inner1 :: rest ∧
      (tagKeys (tagsOrEmpty inner1)).Nodup ∧ inner1.attrs = inner.attrs ∧
      E1.osmDollar = E.osmDollar ∧ E1.etype = E.etype) ∧
    (∃ E2 inner2, setProperties E props = some E2 ∧ E2.elems = inner2 :: rest ∧
      (tagKeys (tagsOrEmpty inner2)).Nodup ∧ inner2.attrs = inner.attrs ∧
      E2.osmDollar = E.osmDollar ∧ E2.etype = E.etype) ∧
    (∀ tags, inner.tag = some tags →
      ∃ E3 inner3, removeProperty E k2 = some E3 ∧ E3.elems = inner3 :: rest ∧
        (tagKeys (tagsOrEmpty inner3)).Nodup ∧ inner3.attrs = inner.attrs ∧
        E3.osmDollar = E.osmDollar ∧ E3.etype = E.etype) ∧
    (∃ E4 inner4, setCoordinates E lat lon = some E4 ∧ E4.elems = inner4 :: rest ∧
      (tagKeys (tagsOrEmpty inner4)).Nodup ∧ inner4.tag = inner.tag ∧
      inner4.attrs.version = inner.attrs.version ∧
      inner4.attrs.timestamp = inner.attrs.timestamp ∧
      E4.osmDollar = E.osmDollar ∧ E4.etype = E.etype) ∧
    (∃ E5 inner5, setTimestampToNow E now = some E5 ∧ E5.elems = inner5 :: rest ∧
      (tagKeys (tagsOrEmpty inner5)).Nodup ∧ inner5.tag = inner.tag ∧
      inner5.attrs.lat = inner.attrs.lat ∧ inner5.attrs.lon = inner.attrs.lon ∧
      inner5.attrs.version = inner.attrs.version ∧
      E5.osmDollar = E.osmDollar ∧ E5.etype = E.etype) ∧
    (∃ E6 inner6, setVersion E ver = some E6 ∧ E6.elems = inner6 :: rest ∧
      (tagKeys (tagsOrEmpty inner6)).Nodup ∧ inner6.tag = inner.tag ∧
      inner6.attrs.lat = inner.attrs.lat ∧ inner6.attrs.lon = inner.attrs.lon ∧
      inner6.attrs.timestamp = inner.attrs.timestamp ∧
      E6.osmDollar = E.osmDollar ∧ E6.etype = E.etype) := by
  obtain ⟨iattrs, itag⟩ := inner
  simp only [tagsOrEmpty] at huniq
  refine ⟨?_, ?_, ?_, ?_, ?_, ?_⟩
  · have h1 : setProperty E k2 v2 = some
        ⟨E.osmDollar, E.etype, ⟨iattrs, some (((itag.getD []).filter
          (fun t => decide (t.attrs.k ≠ JSVal.str k2.toString))) ++
            [⟨⟨JSVal.str k2.toString, JSVal.str v2.toString⟩⟩])⟩ :: rest⟩ := by
      cases itag <;> simp [setProperty, simpleObjectDeepClone, helems]
    exact ⟨_, _, h1, rfl, by
      simpa [tagsOrEmpty] using
        setProperty_keys_nodup (itag.getD []) k2.toString (JSVal.str v2.toString) huniq,
      rfl, rfl, rfl⟩
  · have h2 : setProperties E props = some
        ⟨E.osmDollar, E.etype, ⟨iattrs, some (((itag.getD []).filter
          (fun t => decide (t.attrs.k ∉ (props.map Prod.fst).map JSVal.str))) ++
            (props.map fun p =>
              (⟨⟨JSVal.str p.1, JSVal.str p.2.toString⟩⟩ : Tag)))⟩ :: rest⟩ := by
      cases itag <;> simp [setProperties, simpleObjectDeepClone, helems]
    exact ⟨_, _, h2, rfl, by
      simpa [tagsOrEmpty] using setProperties_keys_nodup (itag.getD []) props huniq hprops,
      rfl, rfl, rfl⟩
  · intro tags htags
    have hit : itag = some tags := htags
    subst hit
    have h3 : removeProperty E k2 = some
        ⟨E.osmDollar, E.etype, ⟨iattrs, some (tags.filter
          (fun t => decide (t.attrs.k ≠ k2)))⟩ :: rest⟩ := by
      simp [removeProperty, simpleObjectDeepClone, helems]
    exact ⟨_, _, h3, rfl, by
      simpa [tagsOrEmpty] using tagKeys_nodup_filter tags _ (by simpa using huniq),
      rfl, rfl, rfl⟩
  · have h4 : setCoordinates E lat lon = some
        ⟨E.osmDollar, E.etype, ⟨⟨some (JSVal.str lat.toString), some (JSVal.str lon.toString),
          iattrs.version, iattrs.timestamp⟩, itag⟩ :: rest⟩ := by
      simp [setCoordinates, simpleObjectDeepClone, helems]
    exact ⟨_, _, h4, rfl, huniq, rfl, rfl, rfl, rfl, rfl⟩
  · have h5 : setTimestampToNow E now = some
        ⟨E.osmDollar, E.etype, ⟨⟨iattrs.lat, iattrs.lon,
          iattrs.version, some (JSVal.str now)⟩, itag⟩ :: rest⟩ := by
      simp [setTimestampToNow, simpleObjectDeepClone, helems]
    exact ⟨_, _, h5, rfl, huniq, rfl, rfl, rfl, rfl, rfl, rfl⟩
  · have h6 : setVersion E ver = some
        ⟨E.osmDollar, E.etype, ⟨⟨iattrs.lat, iattrs.lon,
          some (JSVal.str (intDisplay (parseIntJS ver.toString))), iattrs.timestamp⟩,
          itag⟩ :: rest⟩ := by
      simp [setVersion, simpleObjectDeepClone, helems]
    exact ⟨_, _, h6, rfl, huniq, rfl, rfl, rfl, rfl, rfl, rfl⟩

/-- Witness for C4 at a concrete element. -/
theorem mutators_preserve_invariants_witness :
    (∃ E1 inner1, setProperty sampleElement (JSVal.str "name") (JSVal.str "Cafe") = some E1 ∧
      E1.elems = inner1 :: [] ∧
      (tagKeys (tagsOrEmpty inner1)).Nodup ∧ inner1.attrs = sampleInner.attrs ∧
      E1.osmDollar = sampleElement.osmDollar ∧ E1.etype = sampleElement.etype) ∧
    (∃ E2 inner2, setProperties sampleElement [("name", JSVal.str "Cafe")] = some E2 ∧
      E2.elems = inner2 :: [] ∧
      (tagKeys (tagsOrEmpty inner2)).Nodup ∧ inner2.attrs = sampleInner.attrs ∧
      E2.osmDollar = sampleElement.osmDollar ∧ E2.etype = sampleElement.etype) ∧
    (∀ tags, sampleInner.tag = some tags →
      ∃ E3 inner3, removeProperty sampleElement (JSVal.str "name") = some E3 ∧
        E3.elems = inner3 :: [] ∧
        (tagKeys (tagsOrEmpty inner3)).Nodup ∧ inner3.attrs = sampleInner.attrs ∧
        E3.osmDollar = sampleElement.osmDollar ∧ E3.etype = sampleElement.etype) ∧
    (∃ E4 inner4, setCoordinates sampleElement (JSVal.num 3) (JSVal.num 4) = some E4 ∧
      E4.elems = inner4 :: [] ∧
      (tagKeys (tagsOrEmpty inner4)).Nodup ∧ inner4.tag = sampleInner.tag ∧
      inner4.attrs.version = sampleInner.attrs.version ∧
      inner4.attrs.timestamp = sampleInner.attrs.timestamp ∧
      E4.osmDollar = sampleElement.osmDollar ∧ E4.etype = sampleElement.etype) ∧
    (∃ E5 inner5, setTimestampToNow sampleElement "2020-01-01T00:00:00Z" = some E5 ∧
      E5.elems = inner5 :: [] ∧
      (tagKeys (tagsOrEmpty inner5)).Nodup ∧ inner5.tag = sampleInner.tag ∧
      inner5.attrs.lat = sampleInner.attrs.lat ∧ inner5.attrs.lon = sampleInner.attrs.lon ∧
      inner5.attrs.version = sampleInner.attrs.version ∧
      E5.osmDollar = sampleElement.osmDollar ∧ E5.etype = sampleElement.etype) ∧
    (∃ E6 inner6, setVersion sampleElement (JSVal.num 7) = some E6 ∧
      E6.elems = inner6 :: [] ∧
      (tagKeys (tagsOrEmpty inner6)).Nodup ∧ inner6.tag = sampleInner.tag ∧
      inner6.attrs.lat = sampleInner.attrs.lat ∧ inner6.attrs.lon = sampleInner.attrs.lon ∧
      inner6.attrs.timestamp = sampleInner.attrs.timestamp ∧
      E6.osmDollar = sampleElement.osmDollar ∧ E6.etype = sampleElement.etype) :=
  mutators_preserve_invariants sampleElement sampleInner [] rfl (by decide)
    (JSVal.str "name") (JSVal.str "Cafe") (JSVal.num 3) (JSVal.num 4) (JSVal.num 7)
    [("name", JSVal.str "Cafe")] (by decide) "2020-01-01T00:00:00Z"

/-- Whether a string ends in a slash. -/
def endsWithSlash (s : String) : Bool :=
  match s.data.getLast? with
  | some c => c == '/'
  | none => false

/-- Helper: dropWhile on a matched-character prefix skips the whole prefix. -/
theorem dropWhile_replicate_slash (k : Nat) (l : List Char) :
    List.dropWhile (fun c => decide (c = '/')) (List.replicate k '/' ++ l) =
      List.dropWhile (fun c => decide (c = '/')) l := by
  simp [List.dropWhile_append]

/-- Helper: dropWhile is the identity when the head fails the test. -/
theorem dropWhile_of_head_false (p : Char → Bool) (l : List Char)
    (h : ∀ c ∈ l.head?, p c = false) : List.dropWhile p l = l := by
  cases l with
  | nil => rfl
  | cons c cs =>
    have hc : p c = false := h c rfl
    simp [List.dropWhile_cons, hc]

/-- Helper: stripping trailing slashes from a slash-free-tail string plus a
run of slashes yields the string back. -/
theorem removeTrailingSlashes_spec (base : String) (k : Nat)
    (hbase : endsWithSlash base = false) :
    removeTrailingSlashes (String.mk (base.data ++ List.replicate k '/')) = base := by
  unfold removeTrailingSlashes
  simp only [List.reverse_append, List.reverse_replicate]
  rw [dropWhile_replicate_slash]
  rw [dropWhile_of_head_false]
  · simp
  · intro c hc
    rw [List.head?_reverse] at hc
    unfold endsWithSlash at hbase
    rw [hc] at hbase
    simpa using hbase

/-- C8: the constructed facade endpoint (the `endpoint` getter every request
method reads) is the configured endpoint with every trailing slash stripped;
taking zero slashes, an endpoint without trailing slashes is unchanged. -/
theorem endpoint_normalization (defaults : OsmOptions) (u : UserOptions)
    (s base : String) (k : Nat) (hu : u.endpoint = some s)
    (hs : s.data = base.data ++ List.replicate k '/')
    (hbase : endsWithSlash base = false) :
    endpointGetter defaults u = base := by
  unfold endpointGetter constructorOptions
  simp only [hu, Option.getD_some]
  have hsmk : s = String.mk (base.data ++ List.replicate k '/') := by
    cases s
    simp at hs
    rw [hs]
  rw [hsmk]
  exact removeTrailingSlashes_spec base k hbase

/-- Witness for C8 at a concrete configuration with three trailing slashes. -/
theorem endpoint_normalization_witness :
    endpointGetter
      ⟨"https://www.openstreetmap.org/api/0.6", "", "", "", ""⟩
      ⟨some "https://api.example.org/api/0.6///", none, none, none, none⟩ =
      "https://api.example.org/api/0.6" :=
  endpoint_normalization
    ⟨"https://www.openstreetmap.org/api/0.6", "", "", "", ""⟩
    ⟨some "https://api.example.org/api/0.6///", none, none, none, none⟩
    "https://api.example.org/api/0.6///" "https://api.example.org/api/0.6" 3
    rfl (by decide) (by decide)

/-- Witness for C5 at a concrete element. -/
theorem setCoordinates_setVersion_tags_unchanged_witness :
    (∃ E1 inner1, setCoordinates sampleElement (JSVal.num 3) (JSVal.num 4) = some E1 ∧
      E1.elems = inner1 :: [] ∧ inner1.tag = sampleInner.tag) ∧
    (∃ E2 inner2, setVersion sampleElement (JSVal.num 7) = some E2 ∧
      E2.elems = inner2 :: [] ∧ inner2.tag = sampleInner.tag) :=
  setCoordinates_setVersion_tags_unchanged sampleElement sampleInner []
    (JSVal.num 3) (JSVal.num 4) (JSVal.num 7) rfl

/-- C1: every element mutator deep-copies its argument and mutates only the
copy: run on a heap σ in which address a holds the element value E, each of
the six heap-level mutators succeeds, leaves every pre-existing heap cell
unchanged (so E still reads back identically at a), and returns a root
address whose entire reachable structure is fresh and shares no cell with
anything reachable from a. -/
theorem mutators_deep_copy_no_aliasing (σ : Store) (a : Nat) (E : Element)
    (I : InnerElement) (rest : List InnerElement) (tags : List Tag)
    (hwf : WFStore σ) (hread : readElement σ a = some E)
    (helems : E.elems = I :: rest) (htag : I.tag = some tags)
    (k v lat lon ver : JSVal) (props : List (String × JSVal)) (now : String) :
    MutFrame σ a E (heapSetProperty σ E k v) ∧
    MutFrame σ a E (heapSetProperties σ E props) ∧
    MutFrame σ a E (heapRemoveProperty σ E k) ∧
    MutFrame σ a E (heapSetCoordinates σ E lat lon) ∧
    MutFrame σ a E (heapSetTimestampToNow σ E now) ∧
    MutFrame σ a E (heapSetVersion σ E ver) :=
  ⟨heapSetProperty_frame σ a E I rest k v hwf hread helems,
   heapSetProperties_frame σ a E I rest props hwf hread helems,
   heapRemoveProperty_frame σ a E I rest tags k hwf hread helems htag,
   heapSetCoordinates_frame σ a E I rest lat lon hwf hread helems,
   heapSetTimestampToNow_frame σ a E I rest now hwf hread helems,
   heapSetVersion_frame σ a E I rest ver hwf hread helems⟩

/-- Witness for C1 on a concrete heap holding a concrete element. -/
theorem mutators_deep_copy_no_aliasing_witness :
    MutFrame (allocElement [] sampleElement).1 (allocElement [] sampleElement).2
      sampleElement (heapSetProperty (allocElement [] sampleElement).1 sampleElement
        (JSVal.str "name") (JSVal.str "Cafe")) ∧
    MutFrame (allocElement [] sampleElement).1 (allocElement [] sampleElement).2
      sampleElement (heapSetProperties (allocElement [] sampleElement).1 sampleElement
        [("name", JSVal.str "Cafe")]) ∧
    MutFrame (allocElement [] sampleElement).1 (allocElement [] sampleElement).2
      sampleElement (heapRemoveProperty (allocElement [] sampleElement).1 sampleElement
        (JSVal.str "name")) ∧
    MutFrame (allocElement [] sampleElement).1 (allocElement [] sampleElement).2
      sampleElement (heapSetCoordinates (allocElement [] sampleElement).1 sampleElement
        (JSVal.num 3) (JSVal.num 4)) ∧
    MutFrame (allocElement [] sampleElement).1 (allocElement [] sampleElement).2
      sampleElement (heapSetTimestampToNow (allocElement [] sampleElement).1 sampleElement
        "2020-01-01T00:00:00Z") ∧
    MutFrame (allocElement [] sampleElement).1 (allocElement [] sampleElement).2
      sampleElement (heapSetVersion (allocElement [] sampleElement).1 sampleElement
        (JSVal.num 7)) :=
  mutators_deep_copy_no_aliasing (allocElement [] sampleElement).1
    (allocElement [] sampleElement).2 sampleElement sampleInner []
    [⟨⟨JSVal.str "amenity", JSVal.str "cafe"⟩⟩, ⟨⟨JSVal.str "name", JSVal.str "Old"⟩⟩]
    (by unfold WFStore; decide) (by decide) rfl rfl
    (JSVal.str "name") (JSVal.str "Cafe") (JSVal.num 3) (JSVal.num 4) (JSVal.num 7)
    [("name", JSVal.str "Cafe")] "2020-01-01T00:00:00Z"

end OsmReq
